import Mathlib

/-!
# derby-validator: a verification development

A shallow embedding of the field-validation engine in `lib/index.js` of the
derby-validator package, together with proofs about its behaviour.

The embedding has two layers, matching how the source uses its backing store:

* a *path world* over JS-like value trees (`Val`), embedding the racer model
  operations (`get`/`set`/`del`/`push`/`increment` on dotted paths), the field
  tree codec (`_getFieldsObject`, `_addFromOrigin`, `getValues`), the change
  tracker registered in `_setup`, the synchronous validation pipeline and
  `commit`/`_commitToModel`;
* a *round machine* over flat field names with an explicit event scheduler,
  embedding `_validate`/`_check`'s use of `async.parallel`: rules are launched
  in declaration order, asynchronous rules settle when the environment delivers
  their completion, the first erroring task fires the round's final callback at
  once, and later completions of the same round are ignored by the join (the
  callback is wrapped in `once`) while still running `_check`'s `setValidity`
  body.

Rule predicates are embedded as Lean functions on the (possibly undefined)
field value.  JS `undefined` is `Option.none` at read boundaries; a stored
`undefined` is the `Val.vundef` leaf, and reads collapse it back to `none`.
-/

namespace DerbyValidator

/-- JS-like values: the data stored in the racer model and in the origin.
Objects keep their keys in insertion order, as JS objects do. -/
inductive Val where
  | vundef
  | vnull
  | vbool (b : Bool)
  | vnum (n : Int)
  | vstr (s : String)
  | varr (xs : List Val)
  | vobj (fs : List (String × Val))

/-- Key lookup in an object's field list (first occurrence). -/
def vlookup (fs : List (String × Val)) (k : String) : Option Val :=
  match fs with
  | [] => none
  | (k', v) :: rest => if k' = k then some v else vlookup rest k

/-- JS object assignment `o[k] = v`: overwrite in place, or append a new key. -/
def vsetKey (fs : List (String × Val)) (k : String) (v : Val) : List (String × Val) :=
  match fs with
  | [] => [(k, v)]
  | (k', w) :: rest => if k' = k then (k, v) :: rest else (k', w) :: vsetKey rest k v

/-- `model.get(path)`: `none` is JS `undefined` (missing key, or a stored
`undefined`, which reads back indistinguishably). -/
def vget : Val → List String → Option Val
  | .vundef, [] => none
  | v, [] => some v
  | .vobj fs, k :: rest =>
      match vlookup fs k with
      | some v => vget v rest
      | none => none
  | _, _ :: _ => none

/-- `model.set(path, v)`: creates intermediate objects along the path. -/
def vset : Val → List String → Val → Val
  | _, [], v => v
  | .vobj fs, k :: rest, v =>
      let child := match vlookup fs k with
        | some c => c
        | none => .vobj []
      .vobj (vsetKey fs k (vset child rest v))
  | _, k :: rest, v => .vobj [(k, vset (.vobj []) rest v)]

/-- `model.del(path)`: removes the key at the path; a no-op when the parent
is missing. -/
def vdel : Val → List String → Val
  | v, [] => v
  | .vobj fs, [k] => .vobj (fs.filter (fun p => p.1 ≠ k))
  | .vobj fs, k :: k' :: rest =>
      match vlookup fs k with
      | some child => .vobj (vsetKey fs k (vdel child (k' :: rest)))
      | none => .vobj fs
  | v, _ :: _ => v

/-- `model.push(path, v)`: append to the array at the path; pushing onto an
undefined path creates a one-element array. -/
def vpush (m : Val) (path : List String) (v : Val) : Val :=
  match vget m path with
  | some (.varr xs) => vset m path (.varr (xs ++ [v]))
  | _ => vset m path (.varr [v])

/-- `model.increment(path)`: add 1 to the number at the path (undefined counts
as 0) and return the new value. -/
def vincrement (m : Val) (path : List String) : Val × Int :=
  let n : Int := match vget m path with
    | some (.vnum k) => k + 1
    | _ => 1
  (vset m path (.vnum n), n)

/-- `path.split('.')` (a dotted path has no empty segments in this
development; the splitter is total regardless). -/
def splitPathAux : List Char → List Char → List String
  | [], acc => [String.mk acc.reverse]
  | c :: cs, acc =>
      if c = '.' then String.mk acc.reverse :: splitPathAux cs []
      else splitPathAux cs (c :: acc)

/-- `fieldName.split('.')`. -/
def splitPath (s : String) : List String := splitPathAux s.toList []

/-- JS truthiness of a value. -/
def truthy : Val → Bool
  | .vundef => false
  | .vnull => false
  | .vbool b => b
  | .vnum n => n ≠ 0
  | .vstr s => s ≠ ""
  | .varr _ => true
  | .vobj _ => true

/-- JS truthiness of a possibly-undefined value. -/
def truthyOpt : Option Val → Bool
  | some v => truthy v
  | none => false

mutual
/-- Structural deep equality of values, embedding lodash `_.isEqual`.  (All
comparisons this development performs are between scalars or trees built with
one key order, where structural equality and `_.isEqual` agree.) -/
def valBeq : Val → Val → Bool
  | .vundef, .vundef => true
  | .vnull, .vnull => true
  | .vbool a, .vbool b => a == b
  | .vnum a, .vnum b => a == b
  | .vstr a, .vstr b => a == b
  | .varr xs, .varr ys => valListBeq xs ys
  | .vobj fs, .vobj gs => valFieldsBeq fs gs
  | _, _ => false

/-- Elementwise equality of arrays. -/
def valListBeq : List Val → List Val → Bool
  | [], [] => true
  | x :: xs, y :: ys => valBeq x y && valListBeq xs ys
  | _, _ => false

/-- Pairwise equality of object field lists. -/
def valFieldsBeq : List (String × Val) → List (String × Val) → Bool
  | [], [] => true
  | (k, v) :: fs, (l, w) :: gs => k == l && valBeq v w && valFieldsBeq fs gs
  | _, _ => false
end

/-- `_.isEqual` on possibly-undefined values (`undefined` equals only itself). -/
def valBeqOpt : Option Val → Option Val → Bool
  | none, none => true
  | some v, some w => valBeq v w
  | _, _ => false

/-! ## Field tree codec

`_getFieldsObject` turns the flat dotted field names into a nested tree whose
leaves mark the "owned" paths; `_addFromOrigin` and `getValues` walk a value
tree guided by it. -/

/-- The nested fields object: `true` leaves mark terminal segments. -/
inductive FT where
  | leaf
  | node (children : List (String × FT))

/-- Lookup in a fields-object node. -/
def ftLookup (cs : List (String × FT)) (k : String) : Option FT :=
  match cs with
  | [] => none
  | (k', t) :: rest => if k' = k then some t else ftLookup rest k

/-- Assignment in a fields-object node. -/
def ftSetKey (cs : List (String × FT)) (k : String) (t : FT) : List (String × FT) :=
  match cs with
  | [] => [(k, t)]
  | (k', t') :: rest => if k' = k then (k, t) :: rest else (k', t') :: ftSetKey rest k t

/-- The `set(fieldsObject, segments)` helper of `_getFieldsObject`: the final
segment is marked with a leaf (overwriting any subtree); recursing into an
existing leaf mutates nothing, since JS assignment onto the primitive `true`
is silently discarded. -/
def ftInsert : FT → List String → FT
  | t, [] => t
  | .leaf, _ :: _ => .leaf
  | .node cs, [s] => .node (ftSetKey cs s .leaf)
  | .node cs, s :: s' :: rest =>
      match ftLookup cs s with
      | some .leaf => .node cs
      | some (.node ds) => .node (ftSetKey cs s (ftInsert (.node ds) (s' :: rest)))
      | none => .node (ftSetKey cs s (ftInsert (.node []) (s' :: rest)))

/-- `Validator.prototype._getFieldsObject`, from the declared field names. -/
def getFieldsObject (names : List String) : FT :=
  names.foldl (fun t n => ftInsert t (splitPath n)) (.node [])

mutual
/-- The `add` walk of `_addFromOrigin`: copy each origin key `k` to the model
path `segs.k.value` when the fields object marks it as a leaf or does not map
it; recurse when it maps to a subtree.  (`_.each` iterates nothing on
primitives.) -/
def addFromOriginWalk (m : Val) (segs : List String) (ft : FT) : Val → Val
  | .vobj fs => addFromOriginFields m segs ft fs
  | _ => m

/-- Field-list part of the `_addFromOrigin` walk. -/
def addFromOriginFields (m : Val) (segs : List String) (ft : FT) : List (String × Val) → Val
  | [] => m
  | (k, v) :: rest =>
      let path := segs ++ [k]
      let m' := match ft with
        | .leaf => vset m (path ++ ["value"]) v
        | .node cs =>
            match ftLookup cs k with
            | some (.node ds) => addFromOriginWalk m path (.node ds) v
            | _ => vset m (path ++ ["value"]) v
      addFromOriginFields m' segs ft rest
end

mutual
/-- The `get` walk of `getValues`: leaf-or-unmapped keys yield `field.value`
(skipping excluded key names at any depth), mapped keys recurse into a fresh
nested object. -/
def gvWalk (exclude : List String) (ft : FT) : Val → List (String × Val)
  | .vobj fs => gvFields exclude ft fs
  | _ => []

/-- Field-list part of the `getValues` walk. -/
def gvFields (exclude : List String) (ft : FT) : List (String × Val) → List (String × Val)
  | [] => []
  | (k, fld) :: rest =>
      let tail := gvFields exclude ft rest
      match (match ft with | .leaf => none | .node cs => ftLookup cs k) with
      | some (.node ds) => (k, .vobj (gvWalk exclude (.node ds) fld)) :: tail
      | _ =>
          if k ∈ exclude then tail
          else (k, (vget fld ["value"]).getD .vundef) :: tail
end

/-- `Validator.prototype.getValues`: project the model tree back to a nested
value tree, excluding the bookkeeping keys (and `id` when `noId`). -/
def getValues (names : List String) (m : Val) (noId : Bool) : Val :=
  let exclude := ["hasChangedFields", "hasInvalidFields", "groups"]
    ++ (if noId then ["id"] else [])
  .vobj (gvWalk exclude (getFieldsObject names) m)

/-! ## Rule resolver

`lib/defaultValidations.js` and `Validator.prototype._getRule` /
`_getMessage` / `_assignValidations`. -/

/-- A rule value as it appears in a field spec or rule table: a name, a
regular expression (embedded as its test predicate on the, possibly
undefined, value), a callable, or anything else. -/
inductive JsRule where
  | regexRule (test : Option Val → Bool)
  | funcRule (tag : String)
  | strRef (s : String)
  | otherRule

/-- String-keyed association lookup. -/
def lookupStr {α : Type} (xs : List (String × α)) (k : String) : Option α :=
  match xs with
  | [] => none
  | (k', v) :: rest => if k' = k then some v else lookupStr rest k

/-- The `required` default rule: `value !== null && value !== '' &&
typeof value !== 'undefined'`, delivered synchronously via the callback. -/
def requiredTest (v : Option Val) : Bool :=
  match v with
  | none => false
  | some .vundef => false
  | some .vnull => false
  | some (.vstr "") => false
  | some _ => true

/-- Non-whitespace character class for the email pattern. -/
def nonSpace (c : Char) : Bool :=
  !(c = ' ' || c = '\t' || c = '\n' || c = '\r')

/-- After one leading non-space: continue the `\S+` run or take `'.'` followed
by a final `\S`. -/
def emailTail2 : List Char → Bool
  | [] => false
  | c :: rest =>
      (c = '.' && (match rest with | d :: _ => nonSpace d | [] => false))
        || (nonSpace c && emailTail2 rest)

/-- After the `'@'`: one non-space, then `emailTail2`. -/
def emailMid : List Char → Bool
  | [] => false
  | c :: rest => nonSpace c && emailTail2 rest

/-- After one leading non-space: continue the run or take `'@'` then
`emailMid`. -/
def emailTail1 : List Char → Bool
  | [] => false
  | c :: rest => (c = '@' && emailMid rest) || (nonSpace c && emailTail1 rest)

/-- A match of `\S+@\S+\.\S+` starting at this position. -/
def emailAt : List Char → Bool
  | [] => false
  | c :: rest => nonSpace c && emailTail1 rest

/-- The default `email` rule: an unanchored search for `\S+@\S+\.\S+` in the
string form of the value (no claim in this development evaluates it). -/
def emailTest (v : Option Val) : Bool :=
  let s := match v with
    | some (.vstr s) => s
    | none => "undefined"
    | some .vundef => "undefined"
    | some .vnull => "null"
    | some _ => ""
  (s.toList.tails).any emailAt

/-- An entry of the default rule table: `default` has a message but no rule. -/
structure DefaultEntry where
  rule : Option JsRule := none
  message : String

/-- `lib/defaultValidations.js`. -/
def defaultValidationsTable : List (String × DefaultEntry) :=
  [ ("default", { message := "Something is wrong with this field." }),
    ("email", { rule := some (.regexRule emailTest), message := "Wrong email format." }),
    ("required", { rule := some (.funcRule "required"), message := "Required field" }) ]

/-- `defaultValidations['default'].message`. -/
def defaultMessage : String := "Something is wrong with this field."

/-- `Validator.prototype._getRule`: instance rules first, then the default
table (whose `default` entry resolves to an undefined rule), else a thrown
error naming the rule.  (Rule values stored in `options.rules` are functions
or regular expressions, hence truthy.) -/
def getRule (optRules : List (String × JsRule)) (ruleName : String) :
    Except String (Option JsRule) :=
  match lookupStr optRules ruleName with
  | some r => .ok (some r)
  | none =>
      match lookupStr defaultValidationsTable ruleName with
      | some entry => .ok entry.rule
      | none =>
          .error ("Rule: \"" ++ ruleName ++
            "\" is not available. You need to add it as an option.")

/-- `Validator.prototype._getMessage`: instance message override (falsy falls
through), then the default table's message for the name, else the generic
fallback.  A non-string rule's coerced property key misses both tables in
every configuration considered here. -/
def getMessage (optMessages : List (String × String)) (rule : JsRule) : String :=
  match rule with
  | .strRef s =>
      let fallback := match lookupStr defaultValidationsTable s with
        | some e => e.message
        | none => defaultMessage
      match lookupStr optMessages s with
      | some msg => if msg = "" then fallback else msg
      | none => fallback
  | _ => defaultMessage

/-- A validation as written in a field spec. -/
structure ValidationIn where
  rule : JsRule
  message : Option String := none

/-- A validation after `_assignValidations`: message filled in, rule resolved. -/
structure ValidationOut where
  rule : JsRule
  message : String

/-- Whether a resolved rule passes the `typeof rule === 'function' ||
_.isRegExp(rule)` check. -/
def ruleExecutable : JsRule → Bool
  | .regexRule _ => true
  | .funcRule _ => true
  | _ => false

/-- The `if (typeof validation.rule === 'string') validation.rule =
this._getRule(validation.rule)` step of `_assignValidations`: a string rule
is resolved (resolution to the default table's ruleless `default` entry
leaves an undefined rule value, embedded as `otherRule`); any other rule
value passes through. -/
def resolveRuleJS (optRules : List (String × JsRule)) : JsRule → Except String JsRule
  | .strRef s =>
      match getRule optRules s with
      | .ok (some r) => .ok r
      | .ok none => .ok .otherRule
      | .error e => .error e
  | r => .ok r

/-- The `if (!validation.message) validation.message =
this._getMessage(validation.rule)` step: a falsy message is replaced, using
the original (pre-resolution) rule value. -/
def messageFor (optMessages : List (String × String)) (v : ValidationIn) : String :=
  match v.message with
  | some m => if m = "" then getMessage optMessages v.rule else m
  | none => getMessage optMessages v.rule

/-- `Validator.prototype._assignValidations`: for each validation in order,
default the message, resolve a string rule through `_getRule`, then throw
unless the rule is a function or a regular expression.  Called from
`_addFieldProperties` during construction. -/
def assignValidations (optRules : List (String × JsRule))
    (optMessages : List (String × String)) :
    List ValidationIn → Except String (List ValidationOut)
  | [] => .ok []
  | v :: rest =>
      match resolveRuleJS optRules v.rule with
      | .error e => .error e
      | .ok r =>
          if ruleExecutable r then
            match assignValidations optRules optMessages rest with
            | .ok out => .ok ({ rule := r, message := messageFor optMessages v } :: out)
            | .error e => .error e
          else .error "This rule is not (or does not point to) a RegEx or a function."

/-- A field-spec validation whose rule, after resolution, is neither a
regular expression nor a callable. -/
def resolvesBad (optRules : List (String × JsRule)) (v : ValidationIn) : Prop :=
  ∃ r, resolveRuleJS optRules v.rule = .ok r ∧ ruleExecutable r = false

/-! ## Path-world validator

The synchronous fragment of the engine over the `Val` store: every rule
settles during the launch loop (regular expressions do so in the source; a
callable invoking its callback synchronously behaves the same way).  The
asynchronous behaviour is treated by the round machine below. -/

/-- A synchronously settling validation, post-`_assignValidations`. -/
structure SyncValidation where
  message : String
  test : Option Val → Bool

/-- A field spec in the path world. -/
structure PFieldSpec where
  dflt : Option Val := none
  group : Option String := none
  validations : Option (List SyncValidation) := none

/-- Lookup of a field spec by its (dotted) name. -/
def specFind (specs : List (String × PFieldSpec)) (f : String) : Option PFieldSpec :=
  lookupStr specs f

/-- `Validator.prototype._addFieldProperties`: `setEach(fieldName, data)` with
`data = {value: field.default}` plus, when validations are declared, the
`validations` list, `isValid: false`, `isInvalid: false` and the bound
`validate` function (the latter two stored values are never read back through
the model by the engine, and are recorded as opaque string markers). -/
def addFieldProperties (m : Val) (name : String) (spec : PFieldSpec) : Val :=
  let segs := splitPath name
  let m1 := vset m (segs ++ ["value"]) (spec.dflt.getD .vundef)
  match spec.validations with
  | none => m1
  | some _ =>
      let m2 := vset m1 (segs ++ ["validations"]) (.vstr "<validations>")
      let m3 := vset m2 (segs ++ ["isValid"]) (.vbool false)
      let m4 := vset m3 (segs ++ ["isInvalid"]) (.vbool false)
      vset m4 (segs ++ ["validate"]) (.vstr "<function>")

/-- `Validator.prototype._setup` up to the change subscription: field
properties for every declared spec, then the origin copy.  Both run before
`model.on('change', ...)` is registered, so neither triggers the handler. -/
def psetup (specs : List (String × PFieldSpec)) (origin : Option Val) : Val :=
  let m0 := specs.foldl (fun m p => addFieldProperties m p.1 p.2) (.vobj [])
  match origin with
  | some og => addFromOriginWalk m0 [] (getFieldsObject (specs.map (·.1))) og
  | none => m0

/-- A field's group, defaulting to `"default"`. -/
def groupOfSpec (spec : PFieldSpec) : String := spec.group.getD "default"

/-- The `_.every(this.fields, ...)` loop of `_setGroupValidity`: every spec
field sharing the group has a non-truthy `isInvalid` in the model. -/
def allGroupValid (specs : List (String × PFieldSpec)) (m : Val) (g : String) : Bool :=
  specs.all (fun p =>
    if groupOfSpec p.2 ≠ g then true
    else !(truthyOpt (vget (splitPath p.1) m)))
where
  vget (segs : List String) (m : Val) : Option Val :=
    DerbyValidator.vget m (segs ++ ["isInvalid"])

/-- `Validator.prototype._setGroupValidity`: skip when the recorded group
validity loosely equals the field's new `isValid`; otherwise write `false`
when the field became invalid, then (no early return in the source) write
`true` when every member of the group is not invalid. -/
def setGroupValidity (specs : List (String × PFieldSpec)) (m : Val) (f : String)
    (value : Bool) : Val :=
  let g := ((specFind specs f).map groupOfSpec).getD "default"
  let path := ["groups", g, "isValid"]
  -- `currentlyValid == value`: JS loose equality, under which undefined
  -- differs from both booleans
  let unchanged := match vget m path with
    | some (.vbool b) => b == value
    | _ => false
  if unchanged then m
  else
    let m1 := if value then m else vset m path (.vbool false)
    if allGroupValid specs m1 g then vset m1 path (.vbool true) else m1

/-- `Validator.prototype._setState`: `hasInvalidFields` is recomputed from a
top-level `_.find(this.model.get(), {isInvalid: true})`, which only inspects
the direct entries of the model root. -/
def hasInvalidTopLevel (m : Val) : Bool :=
  match m with
  | .vobj fs => fs.any (fun p =>
      match vget p.2 ["isInvalid"] with
      | some (.vbool true) => true
      | _ => false)
  | _ => false

/-- `Validator.prototype._setValidity`, including the synchronous change
handler: `setEach` writes `isInvalid` then `isValid`; the `isValid` write
fires the `'**'` subscription, whose `isValid` branch calls
`_setGroupValidity` when the validator's field specs contain the field; on
validity the `invalidAt` marker is deleted; finally `_setState` runs. -/
def setValidity (specs : List (String × PFieldSpec)) (m : Val) (f : String)
    (validity : Bool) : Val :=
  let segs := splitPath f
  let m1 := vset m (segs ++ ["isInvalid"]) (.vbool (!validity))
  let m2 := vset m1 (segs ++ ["isValid"]) (.vbool validity)
  let m3 := if (specFind specs f).isSome then setGroupValidity specs m2 f validity else m2
  let m4 := if validity then vdel m3 (segs ++ ["invalidAt"]) else m3
  vset m4 ["hasInvalidFields"] (.vbool (hasInvalidTopLevel m4))

/-- `Validator.prototype._validate` when every rule settles synchronously:
clear `messages`, set `validating`, bump `serial`, early-return `true` when
the field data owns no `validations` key (it owns one exactly when the spec
declared validations), else run the rules on the captured value.  Failing
rules push their message as they settle, i.e. in declaration order here; the
first failure fires the round's `once`-wrapped final callback, so
`_setValidity` runs once with the overall result, and the writes commute with
the remaining pushes, giving this final state.  `validating` is deleted
because the captured serial is still current. -/
def validateFieldSync (specs : List (String × PFieldSpec)) (m : Val) (f : String) :
    Val × Bool :=
  let segs := splitPath f
  let m1 := vdel m (segs ++ ["messages"])
  let m2 := vset m1 (segs ++ ["validating"]) (.vbool true)
  let m3 := (vincrement m2 (segs ++ ["serial"])).1
  match (specFind specs f).bind (·.validations) with
  | none => (m3, true)
  | some vs =>
      let value := vget m3 (segs ++ ["value"])
      let m4 := vs.foldl (fun mm vld =>
        if vld.test value then mm
        else vpush mm (segs ++ ["messages"]) (.vstr vld.message)) m3
      let valid := vs.all (fun vld => vld.test value)
      let m5 := setValidity specs m4 f valid
      (vdel m5 (segs ++ ["validating"]), valid)

/-- `Validator.prototype.validateAll` in the synchronous fragment: fields
without a truthy `validations` spec entry are skipped; the rest validate (all
of them run even after a failure, since `async.parallel` keeps launching);
the overall callback value is `true` exactly when no field errored. -/
def validateAllSync (specs : List (String × PFieldSpec)) (m : Val) : Val × Bool :=
  specs.foldl (fun acc p =>
    match p.2.validations with
    | none => acc
    | some _ =>
        let r := validateFieldSync specs acc.1 p.1
        (r.1, acc.2 && r.2)) (m, true)

/-- `_.get(self.fields, field + 'default')` as evaluated by the change
handler in `_setup`: lodash splits the path on dots, so the final segment is
the last field-name segment with `"default"` glued on (the source misses a
`'.'`).  A first segment only hits the fields object when a spec is literally
named by it, in which case the result is that spec object (a non-user value,
embedded as a sentinel object); deeper segments index into a spec object,
whose own keys (`default`/`group`/`validations`) never carry the glued
suffix, giving undefined. -/
def fieldsGetBuggy (specs : List (String × PFieldSpec)) (pathStr : String) : Option Val :=
  match splitPath pathStr with
  | [] => none
  | seg :: rest =>
      match specFind specs seg with
      | none => none
      | some _ =>
          if rest.isEmpty then some (.vobj [("fieldspec", .vbool true)]) else none

mutual
/-- The recursive `find` of `_setChangedState`, applied to one entry: an
entry owning a `value` key answers its truthy `hasChanged`; any other object
(or array — `_.findKey` iterates those too) is searched recursively;
primitives answer `false`. -/
def findHasChanged : Val → Bool
  | .vobj gs =>
      if (vlookup gs "value").isSome then truthyOpt (vlookup gs "hasChanged")
      else findHasChangedFields gs
  | .varr xs => findHasChangedArr xs
  | _ => false

/-- Object part of the `_setChangedState` search. -/
def findHasChangedFields : List (String × Val) → Bool
  | [] => false
  | (_, fld) :: rest => findHasChanged fld || findHasChangedFields rest

/-- Array part of the `_setChangedState` search. -/
def findHasChangedArr : List Val → Bool
  | [] => false
  | fld :: rest => findHasChanged fld || findHasChangedArr rest
end

/-- The validator's state outside the model tree: the origin snapshot and the
observable `commit` callback invocations. -/
structure PState where
  model : Val := .vobj []
  origin : Option Val := none
  originLeafId : String := "<generated-id>"
  callbackLog : List Bool := []

/-- A user mutation of a field's `value`, together with the `'**'` change
handler registered by `_setup` (field names here contain no `value` segment,
so the handler's `valueIndex` is the final segment): recompute `hasChanged`
against the origin's current value at the field path — or, with no origin,
against the dotless `_.get(self.fields, field + 'default')` — then re-derive
the global `hasChangedFields` by the recursive search. -/
def userSetValue (specs : List (String × PFieldSpec)) (s : PState) (f : String)
    (v : Val) : PState :=
  let segs := splitPath f
  let m1 := vset s.model (segs ++ ["value"]) v
  let startValue := match s.origin with
    | some og => vget og segs
    | none => fieldsGetBuggy specs (f ++ "default")
  let hasChangedNow := !(valBeqOpt (vget m1 (segs ++ ["value"])) startValue)
  let m2 := vset m1 (segs ++ ["hasChanged"]) (.vbool hasChangedNow)
  let m3 := vset m2 ["hasChangedFields"] (.vbool (findHasChanged m2))
  { s with model := m3 }

/-- `origin.setEach(values)`: write each top-level key of the projected
values onto the origin. -/
def vsetEachTop (og : Val) (values : Val) : Val :=
  match values with
  | .vobj fs => fs.foldl (fun o p => vset o [p.1] p.2) og
  | _ => og

/-- `Validator.prototype._commitToModel`: project `getValues(true)`; when the
origin already has an `id`, `setEach` the values onto it; otherwise create
the entity in the parent collection under the identifier reserved at
construction (`values.id = origin.leaf()`), which the origin handle then
reads back. -/
def commitToModel (specs : List (String × PFieldSpec)) (s : PState) : PState :=
  let values := getValues (specs.map (·.1)) s.model true
  match s.origin with
  | none => s
  | some og =>
      if (vget og ["id"]).isSome then
        { s with origin := some (vsetEachTop og values) }
      else
        { s with origin := some (vset values ["id"] (.vstr s.originLeafId)) }

/-- `Validator.prototype.commit` with normalized arguments (the source's
one-argument shuffle only rebinds a lone callback): no origin means an
immediate return; `force` commits without validating and returns before the
callback; otherwise `validateAll` runs, the commit happens only on overall
validity, and the callback (when supplied) receives the overall validity. -/
def commit (specs : List (String × PFieldSpec)) (s : PState) (force : Bool)
    (hasCallback : Bool) : PState :=
  if s.origin.isNone then s
  else if force then commitToModel specs s
  else
    let r := validateAllSync specs s.model
    let s1 := { s with model := r.1 }
    let s2 := if r.2 then commitToModel specs s1 else s1
    if hasCallback then { s2 with callbackLog := s2.callbackLog ++ [r.2] } else s2

/-! ## Round machine

`_validate`/`_check` with genuinely asynchronous rules, over flat field
names.  A `validate` call launches one *round* per `async.parallel`
invocation; callable rules become *pending settles* that the environment
delivers in any order with any outcome.  `async.parallel`'s final callback is
wrapped in `once`: the first erroring task fires it immediately, a full
complement of error-free completions fires it after the launch loop ends, and
every later task completion is ignored by the join while `_check`'s
`setValidity` body still runs. -/

/-- A rule in the machine: regular expressions settle synchronously during
the launch; callables settle when the environment delivers their completion. -/
inductive MRule where
  | regexRule (test : Option Val → Bool)
  | funcRule

/-- A validation entry, post-`_assignValidations`. -/
structure MValidation where
  message : String
  rule : MRule

/-- A field spec in the machine. -/
structure MFieldSpec where
  dflt : Option Val := none
  group : Option String := none
  validations : Option (List MValidation) := none

/-- The per-field model data (the keys `_validate`/`_check`/`_setValidity`
read and write). -/
structure FieldStore where
  value : Option Val := none
  messages : Option (List String) := none
  validating : Option Bool := none
  serial : Nat := 0
  isValid : Option Bool := none
  isInvalid : Option Bool := none
  invalidAt : Option Val := none

/-- One `async.parallel` invocation from `_validate`: the captured serial,
the count of launched-but-uncompleted tasks, whether the launch loop is still
running, whether the `once`-wrapped final callback has fired, and where that
callback reports (a `validateAll` join, or the user). -/
structure Round where
  rid : Nat
  fieldName : String
  serial : Nat
  outstanding : Nat
  launching : Bool
  settledOnce : Bool
  parent : Option Nat

/-- An in-flight callable rule: its round, field, captured serial and
message. -/
structure Pending where
  rid : Nat
  fieldName : String
  serial : Nat
  message : String

/-- The `async.parallel` join of one `validateAll` call. -/
structure VAJoin where
  jid : Nat
  outstanding : Nat
  launching : Bool
  settledOnce : Bool

/-- The machine state: the model data per field, the group records, the
derived global flag, the active rounds and joins, the pending settles, and
the observable callback logs. -/
structure MState where
  stores : List (String × FieldStore) := []
  groups : List (String × Bool) := []
  groupWrites : List (String × Bool) := []
  hasInvalidFields : Bool := false
  rounds : List Round := []
  pending : List Pending := []
  joins : List VAJoin := []
  nextId : Nat := 0
  callLog : List (Nat × Bool) := []
  vaLog : List (Nat × Bool) := []

/-- A field's model data; a path never written reads as an empty store. -/
def getStore (s : MState) (f : String) : FieldStore :=
  (lookupStr s.stores f).getD {}

/-- Write a field's model data. -/
def putStore (s : MState) (f : String) (upd : FieldStore → FieldStore) : MState :=
  { s with stores := storeUpd s.stores f upd }
where
  storeUpd (xs : List (String × FieldStore)) (f : String)
      (upd : FieldStore → FieldStore) : List (String × FieldStore) :=
    match xs with
    | [] => [(f, upd {})]
    | (k, st) :: rest =>
        if k = f then (k, upd st) :: rest else (k, st) :: storeUpd rest f upd

/-- Lookup of a field spec by name. -/
def specFindM (specs : List (String × MFieldSpec)) (f : String) : Option MFieldSpec :=
  lookupStr specs f

/-- `model.get('groups.' + g + '.isValid')`. -/
def groupGet (s : MState) (g : String) : Option Bool :=
  lookupStr s.groups g

/-- `model.set('groups.' + g + '.isValid', b)`; every such write is also
recorded in the `groupWrites` log. -/
def groupSet (s : MState) (g : String) (b : Bool) : MState :=
  { s with groups := groupUpd s.groups g b,
           groupWrites := s.groupWrites ++ [(g, b)] }
where
  groupUpd (xs : List (String × Bool)) (g : String) (b : Bool) :
      List (String × Bool) :=
    match xs with
    | [] => [(g, b)]
    | (k, v) :: rest =>
        if k = g then (k, b) :: rest else (k, v) :: groupUpd rest g b

/-- A field's group in the machine. -/
def groupOfSpecM (spec : MFieldSpec) : String := spec.group.getD "default"

/-- The `_.every(this.fields, ...)` loop of `_setGroupValidity`. -/
def allGroupValidM (specs : List (String × MFieldSpec)) (s : MState) (g : String) :
    Bool :=
  specs.all (fun p =>
    if groupOfSpecM p.2 ≠ g then true
    else !((getStore s p.1).isInvalid == some true))

/-- `Validator.prototype._setGroupValidity` in the machine. -/
def setGroupValidityM (specs : List (String × MFieldSpec)) (s : MState) (f : String)
    (value : Bool) : MState :=
  let g := ((specFindM specs f).map groupOfSpecM).getD "default"
  -- `currentlyValid == value`: JS loose equality, undefined differs from both
  let unchanged := match groupGet s g with
    | some b => b == value
    | none => false
  if unchanged then s
  else
    let s1 := if value then s else groupSet s g false
    if allGroupValidM specs s1 g then groupSet s1 g true else s1

/-- `Validator.prototype._setState` over flat field names: the top-level
entries of the model are exactly the field objects (plus the derived keys,
which own no `isInvalid`). -/
def setStateM (s : MState) : MState :=
  { s with hasInvalidFields := s.stores.any (fun p => p.2.isInvalid == some true) }

/-- `Validator.prototype._setValidity` in the machine, with the synchronous
change handler: `setEach` writes `isInvalid` then `isValid`; the `isValid`
write fires the `'**'` subscription, which calls `_setGroupValidity` when the
validator's field specs contain the field; on validity `invalidAt` is
deleted; then `_setState` runs. -/
def setValidityM (specs : List (String × MFieldSpec)) (s : MState) (f : String)
    (validity : Bool) : MState :=
  let s1 := putStore s f (fun st => { st with isInvalid := some (!validity) })
  let s2 := putStore s1 f (fun st => { st with isValid := some validity })
  let s3 := if (specFindM specs f).isSome then setGroupValidityM specs s2 f validity
            else s2
  let s4 := if validity then putStore s3 f (fun st => { st with invalidAt := none })
            else s3
  setStateM s4

/-- `model.push(fieldName + '.messages', msg)`: pushing onto the deleted key
creates a one-element array. -/
def pushMessageM (s : MState) (f : String) (msg : String) : MState :=
  putStore s f (fun st => { st with messages := some ((st.messages.getD []) ++ [msg]) })

/-- Round lookup by id. -/
def findRound (s : MState) (rid : Nat) : Option Round :=
  s.rounds.find? (fun r => r.rid = rid)

/-- Round replacement by id. -/
def putRound (s : MState) (r : Round) : MState :=
  { s with rounds := s.rounds.map (fun r' => if r'.rid = r.rid then r else r') }

/-- Join lookup by id. -/
def findJoin (s : MState) (jid : Nat) : Option VAJoin :=
  s.joins.find? (fun j => j.jid = jid)

/-- Join replacement by id. -/
def putJoin (s : MState) (j : VAJoin) : MState :=
  { s with joins := s.joins.map (fun j' => if j'.jid = j.jid then j else j') }

/-- One task of a `validateAll` join completing (the per-field wrapper calls
`asyncCallback(valid ? null : true, valid)`): an error fires the overall
callback with `false` at once; the last error-free completion after the
launch loop fires it with `true`; a join whose callback already fired
ignores the completion. -/
def joinComplete (s : MState) (jid : Nat) (err : Bool) : MState :=
  match findJoin s jid with
  | none => s
  | some j =>
      let j' := { j with outstanding := j.outstanding - 1 }
      if j.settledOnce then putJoin s j'
      else if err then
        putJoin { s with vaLog := s.vaLog ++ [(jid, false)] }
          { j' with settledOnce := true }
      else if !j'.launching && j'.outstanding = 0 then
        putJoin { s with vaLog := s.vaLog ++ [(jid, true)] }
          { j' with settledOnce := true }
      else putJoin s j'

/-- The final callback of a round's `async.parallel` (`valid = err ? false :
true`): `_setValidity`, then `callback(valid)` (reported to the user log or
to the round's `validateAll` join), then the serial-guarded deletion of
`validating`. -/
def finalizeRound (specs : List (String × MFieldSpec)) (s : MState) (rid : Nat)
    (valid : Bool) : MState :=
  match findRound s rid with
  | none => s
  | some r =>
      let s1 := putRound s { r with settledOnce := true }
      let s2 := setValidityM specs s1 r.fieldName valid
      let s3 := match r.parent with
        | none => { s2 with callLog := s2.callLog ++ [(r.rid, valid)] }
        | some jid => joinComplete s2 jid (!valid)
      if r.serial = (getStore s3 r.fieldName).serial then
        putStore s3 r.fieldName (fun st => { st with validating := none })
      else s3

/-- One task of a round completing: decrement the outstanding count; an error
fires the final callback with failure at once; the last error-free
completion after the launch loop fires it with success; a round whose final
callback already fired ignores the completion. -/
def roundTaskComplete (specs : List (String × MFieldSpec)) (s : MState) (rid : Nat)
    (err : Bool) : MState :=
  match findRound s rid with
  | none => s
  | some r =>
      let s1 := putRound s { r with outstanding := r.outstanding - 1 }
      if r.settledOnce then s1
      else if err then finalizeRound specs s1 rid false
      else if !r.launching && r.outstanding - 1 = 0 then finalizeRound specs s1 rid true
      else s1

/-- The body of `_check`'s `setValidity(valid, invalidResult)`: re-read the
field's serial to decide currency; push the validation's message only when
current and failing; set `invalidAt` only when current and the marker is
truthy; then complete the task with `callback(current && valid ? null :
true, valid)`. -/
def settleCore (specs : List (String × MFieldSpec)) (s : MState) (p : Pending)
    (valid : Bool) (marker : Option Val) : MState :=
  let current := p.serial = (getStore s p.fieldName).serial
  let s1 := if current && !valid then pushMessageM s p.fieldName p.message else s
  let s2 := match marker with
    | some mv =>
        if current && truthy mv then
          putStore s1 p.fieldName (fun st => { st with invalidAt := some mv })
        else s1
    | none => s1
  roundTaskComplete specs s2 p.rid (!(current && valid))

/-- Add a launched task to a round's outstanding count (`async.parallel`
bumps its counter before invoking the task, which may then complete
synchronously). -/
def bumpOutstanding (s : MState) (rid : Nat) : MState :=
  { s with rounds := s.rounds.map (fun r =>
      if r.rid = rid then { r with outstanding := r.outstanding + 1 } else r) }

/-- Launching one validation of a round: a regular-expression rule settles
synchronously with `rule.test(value)` and no marker; a callable becomes a
pending settle for the environment. -/
def launchOne (specs : List (String × MFieldSpec)) (s : MState) (rid : Nat)
    (f : String) (sr : Nat) (value : Option Val) (vld : MValidation) : MState :=
  let s1 := bumpOutstanding s rid
  match vld.rule with
  | .regexRule test =>
      settleCore specs s1 { rid, fieldName := f, serial := sr, message := vld.message }
        (test value) none
  | .funcRule =>
      { s1 with pending := s1.pending ++
          [{ rid, fieldName := f, serial := sr, message := vld.message }] }

/-- End of the launch loop: `async.parallel` fires the success callback when
every task already completed and the `once` wrapper has not fired. -/
def endLaunch (specs : List (String × MFieldSpec)) (s : MState) (rid : Nat) : MState :=
  match findRound s rid with
  | none => s
  | some r =>
      let s1 := putRound s { r with launching := false }
      if !r.settledOnce && r.outstanding = 0 then finalizeRound specs s1 rid true else s1

/-- `Validator.prototype._validate`: delete `messages`, set `validating`,
increment and capture `serial`, then read the field data.  Data without a
`validations` key (exactly the fields whose spec declared none) makes the
call resolve `true` at once, with `validating` left set.  Otherwise a round
is created and every validation is launched in declaration order on the
value captured by the single `model.get(fieldName)`. -/
def validateStartM (specs : List (String × MFieldSpec)) (s : MState) (f : String)
    (parent : Option Nat) : MState :=
  let s1 := putStore s f (fun st => { st with messages := none })
  let s2 := putStore s1 f (fun st => { st with validating := some true })
  let s3 := putStore s2 f (fun st => { st with serial := st.serial + 1 })
  let sr := (getStore s3 f).serial
  match (specFindM specs f).bind (·.validations) with
  | none =>
      let rid := s3.nextId
      let s4 := { s3 with nextId := rid + 1 }
      match parent with
      | none => { s4 with callLog := s4.callLog ++ [(rid, true)] }
      | some jid => joinComplete s4 jid false
  | some vs =>
      let rid := s3.nextId
      let value := (getStore s3 f).value
      let r0 : Round := { rid, fieldName := f, serial := sr, outstanding := 0,
                          launching := true, settledOnce := false, parent }
      let s4 := { s3 with nextId := rid + 1, rounds := s3.rounds ++ [r0] }
      let s5 := vs.foldl (fun acc vld => launchOne specs acc rid f sr value vld) s4
      endLaunch specs s5 rid

/-- Add a launched field task to a join's outstanding count. -/
def bumpJoin (s : MState) (jid : Nat) : MState :=
  { s with joins := s.joins.map (fun j =>
      if j.jid = jid then { j with outstanding := j.outstanding + 1 } else j) }

/-- End of `validateAll`'s launch loop, mirroring `endLaunch`. -/
def endJoinLaunch (s : MState) (jid : Nat) : MState :=
  match findJoin s jid with
  | none => s
  | some j =>
      let s1 := putJoin s { j with launching := false }
      if !j.settledOnce && j.outstanding = 0 then
        putJoin { s1 with vaLog := s1.vaLog ++ [(jid, true)] }
          { j with launching := false, settledOnce := true }
      else s1

/-- `Validator.prototype.validateAll`: collect a task per field whose spec
carries a truthy `validations` entry (fields without one are skipped), run
them all through `_validate`, and join them with `async.parallel`. -/
def validateAllM (specs : List (String × MFieldSpec)) (s : MState) : MState :=
  let targets := specs.filter (fun p => p.2.validations.isSome)
  let jid := s.nextId
  let j0 : VAJoin := { jid, outstanding := 0, launching := true, settledOnce := false }
  let s1 := { s with nextId := jid + 1, joins := s.joins ++ [j0] }
  let s2 := targets.foldl (fun acc p =>
      validateStartM specs (bumpJoin acc jid) p.1 (some jid)) s1
  endJoinLaunch s2 jid

/-- The environment's moves: a `validate(f)` call, delivery of a pending
callable settle with its outcome and optional `invalidAt` marker, a
`setInvalid` call, and a `validateAll()` call. -/
inductive Cmd where
  | validate (f : String)
  | settle (i : Nat) (valid : Bool) (marker : Option Val)
  | setInvalidCall (f : String) (msg : Option String)
  | validateAll

/-- One machine step. -/
def stepM (specs : List (String × MFieldSpec)) (s : MState) : Cmd → MState
  | .validate f => validateStartM specs s f none
  | .settle i valid marker =>
      match s.pending.get? i with
      | none => s
      | some p =>
          -- `only_once`: a delivered settle is consumed
          let s1 := { s with pending := s.pending.eraseIdx i }
          settleCore specs s1 p valid marker
  | .setInvalidCall f msg =>
      -- `Validator.prototype.setInvalid`: `_setValidity(fieldName, false)`
      -- then push the given or default message
      let s1 := setValidityM specs s f false
      pushMessageM s1 f (msg.getD defaultMessage)
  | .validateAll => validateAllM specs s

/-- Run a command list. -/
def runM (specs : List (String × MFieldSpec)) (s : MState) (cmds : List Cmd) : MState :=
  cmds.foldl (stepM specs) s

/-- `_addFieldProperties` for one machine field: `value` from the default,
plus the validity scaffolding when validations are declared. -/
def initStoreOf (spec : MFieldSpec) : FieldStore :=
  match spec.validations with
  | none => { value := spec.dflt }
  | some _ => { value := spec.dflt, isValid := some false, isInvalid := some false }

/-- The machine state after `_setup` (no origin): field properties written
before the change subscription exists. -/
def initStateM (specs : List (String × MFieldSpec)) : MState :=
  { stores := specs.map (fun p => (p.1, initStoreOf p.2)) }

/-! ## Concrete instances

Field specs, states and traces used by the concrete theorems below.  They
mirror the fixtures of the package's test suite. -/

/-- Whether a command is a pending-settle delivery. -/
def isSettleCmd : Cmd → Bool
  | .settle _ _ _ => true
  | _ => false

/-- One asynchronous (callable) required-style rule. -/
def asyncRequired : MValidation := { message := "Required field", rule := .funcRule }

/-- A single field `p` with one callable rule. -/
def specsOneAsync : List (String × MFieldSpec) :=
  [("p", { validations := some [asyncRequired] })]

/-- A single field `p` with two callable rules, messages in declaration
order `m1`, `m2`. -/
def specsTwoAsync : List (String × MFieldSpec) :=
  [("p", { validations := some [{ message := "m1", rule := .funcRule },
                                { message := "m2", rule := .funcRule }] })]

/-- A field `p` without validations next to a field `q` with one. -/
def specsPlain : List (String × MFieldSpec) :=
  [("p", {}), ("q", { validations := some [asyncRequired] })]

/-- Two validate calls in quick succession; the second round's rule settles
first (valid), then the first round's rule settles (stale). -/
def traceStale : List Cmd :=
  [.validate "p", .validate "p", .settle 1 true none, .settle 0 true none]

/-- One round of two failing callable rules settling in reverse declaration
order. -/
def traceReverse : List Cmd :=
  [.validate "p", .settle 1 false none, .settle 0 false none]

/-- Two validate calls; only the first round's rule settles (stale). -/
def traceSupersede : List Cmd :=
  [.validate "p", .validate "p", .settle 0 true none]

/-- The synchronous required rule of the path world. -/
def reqSync : SyncValidation := { message := "Required field", test := requiredTest }

/-- The deep-path fixture of the test suite: field `c.d.f`. -/
def specsDeep : List (String × PFieldSpec) := [("c.d.f", { validations := some [reqSync] })]

/-- The origin document `collection.2` of the test suite, restricted to the
keys the claim mentions. -/
def originDeep : Val :=
  .vobj [("a", .vstr "a"), ("c", .vobj [("d", .vobj [("f", .vstr "f")])]), ("id", .vstr "2")]

/-- The path-world state after constructing against `originDeep`. -/
def stateDeep : PState :=
  { model := psetup specsDeep (some originDeep), origin := some originDeep }

/-- A field `path` with default `'abc'` and no origin (the change-tracker
baseline fixture). -/
def specsDefault : List (String × PFieldSpec) :=
  [("path", { dflt := some (.vstr "abc"), validations := some [reqSync] })]

/-- Commit fixture: `c.d` plain, `c.e` required, origin `collection.1`. -/
def specsCommit : List (String × PFieldSpec) :=
  [("c.d", {}), ("c.e", { validations := some [reqSync] })]

/-- The origin document `collection.1` of the test suite. -/
def originCommit : Val :=
  .vobj [("a", .vstr "a"), ("b", .vnum 2), ("c", .vobj [("d", .vstr "d")]), ("id", .vstr "1")]

/-- The path-world state after constructing against `originCommit`. -/
def stateCommit : PState :=
  { model := psetup specsCommit (some originCommit), origin := some originCommit }

/-- `stateCommit` with `c.e.value` set to `'abc'` (all fields valid). -/
def stateCommitValid : PState := userSetValue specsCommit stateCommit "c.e" (.vstr "abc")

/-- Machine fixture for the group claims: `a` valid-ready, `b` empty, both
in group `A`. -/
def specsGroup : List (String × MFieldSpec) :=
  [("a", { dflt := some (.vstr "abc"), group := some "A",
           validations := some [{ message := "Required field", rule := .regexRule requiredTest }] }),
   ("b", { group := some "A",
           validations := some [{ message := "Required field", rule := .regexRule requiredTest }] })]

/-! ## Round invariants

The per-round bookkeeping used to characterize a single, unsuperseded
`_validate` round. -/

/-- Every pending settle belongs to the given round. -/
def pendingWF (f : String) (rid sr : Nat) (s : MState) : Prop :=
  ∀ p ∈ s.pending, p.rid = rid ∧ p.fieldName = f ∧ p.serial = sr

/-- Phase of one unsuperseded round: the final callback has not fired and no
failure message exists yet, or it fired with success (everything settled
valid, no messages), or it fired with failure (some message recorded). -/
def roundBranch (f : String) (s : MState) (r : Round) : Prop :=
  (r.settledOnce = false ∧ (getStore s f).messages = none)
  ∨ (r.settledOnce = true ∧ (getStore s f).isValid = some true
      ∧ (getStore s f).isInvalid = some false
      ∧ (getStore s f).messages = none ∧ s.pending = [])
  ∨ (r.settledOnce = true ∧ (getStore s f).isValid = some false
      ∧ (getStore s f).isInvalid = some true
      ∧ ∃ ms, (getStore s f).messages = some ms ∧ ms ≠ [])

/-- Launch-phase version of `roundBranch`: the success callback cannot fire
while the launch loop runs. -/
def roundBranchL (f : String) (s : MState) (r : Round) : Prop :=
  (r.settledOnce = false ∧ (getStore s f).messages = none)
  ∨ (r.settledOnce = true ∧ (getStore s f).isValid = some false
      ∧ (getStore s f).isInvalid = some true
      ∧ ∃ ms, (getStore s f).messages = some ms ∧ ms ≠ [])

/-- Invariant of one unsuperseded round after its launch loop finished. -/
def roundInvS (f : String) (rid sr : Nat) (s : MState) : Prop :=
  (getStore s f).serial = sr ∧ pendingWF f rid sr s ∧
  ∃ r, s.rounds = [r] ∧ r.rid = rid ∧ r.fieldName = f ∧ r.serial = sr
    ∧ r.launching = false ∧ r.outstanding = s.pending.length ∧ r.parent = none
    ∧ roundBranch f s r

/-- Invariant of one unsuperseded round during its launch loop. -/
def roundInvL (f : String) (rid sr : Nat) (s : MState) : Prop :=
  (getStore s f).serial = sr ∧ pendingWF f rid sr s ∧
  ∃ r, s.rounds = [r] ∧ r.rid = rid ∧ r.fieldName = f ∧ r.serial = sr
    ∧ r.launching = true ∧ r.outstanding = s.pending.length ∧ r.parent = none
    ∧ roundBranchL f s r

/-! ## Store plumbing lemmas -/

theorem lookupStr_storeUpd (xs : List (String × FieldStore)) (f g : String)
    (u : FieldStore → FieldStore) :
    lookupStr (putStore.storeUpd xs f u) g =
      if f = g then some (u ((lookupStr xs f).getD {})) else lookupStr xs g := by
  induction xs with
  | nil =>
      simp only [putStore.storeUpd, lookupStr]
      by_cases h : f = g <;> simp [h]
  | cons hd tl ih =>
      obtain ⟨k, st⟩ := hd
      simp only [putStore.storeUpd]
      by_cases hk : k = f
      · subst hk
        by_cases hg : k = g
        · subst hg; simp [lookupStr]
        · simp [lookupStr, hg, (by exact fun h => hg h : k = g → False)]
      · simp only [if_neg hk, lookupStr]
        by_cases hg : k = g
        · subst hg
          have : ¬ (f = k) := fun h => hk h.symm
          simp [this]
        · simp [hg, ih]

@[simp] theorem getStore_putStore_self (s : MState) (f : String)
    (u : FieldStore → FieldStore) :
    getStore (putStore s f u) f = u (getStore s f) := by
  simp [getStore, putStore, lookupStr_storeUpd]

theorem getStore_putStore_ne (s : MState) (f g : String) (u : FieldStore → FieldStore)
    (h : f ≠ g) : getStore (putStore s f u) g = getStore s g := by
  simp [getStore, putStore, lookupStr_storeUpd, h]

@[simp] theorem getStore_groupSet (s : MState) (g : String) (b : Bool) (f : String) :
    getStore (groupSet s g b) f = getStore s f := rfl

@[simp] theorem getStore_setStateM (s : MState) (f : String) :
    getStore (setStateM s) f = getStore s f := rfl

@[simp] theorem getStore_putRound (s : MState) (r : Round) (f : String) :
    getStore (putRound s r) f = getStore s f := rfl

@[simp] theorem getStore_putJoin (s : MState) (j : VAJoin) (f : String) :
    getStore (putJoin s j) f = getStore s f := rfl

@[simp] theorem getStore_bumpOutstanding (s : MState) (rid : Nat) (f : String) :
    getStore (bumpOutstanding s rid) f = getStore s f := rfl

@[simp] theorem getStore_bumpJoin (s : MState) (jid : Nat) (f : String) :
    getStore (bumpJoin s jid) f = getStore s f := rfl

theorem getStore_setGroupValidityM (specs : List (String × MFieldSpec)) (s : MState)
    (f' : String) (v : Bool) (f : String) :
    getStore (setGroupValidityM specs s f' v) f = getStore s f := by
  simp only [setGroupValidityM]
  repeat' split
  all_goals rfl

theorem getStore_joinComplete (s : MState) (jid : Nat) (err : Bool) (f : String) :
    getStore (joinComplete s jid err) f = getStore s f := by
  simp only [joinComplete]
  repeat' split
  all_goals rfl

/-- `_setValidity` rewrites exactly the validity keys of the target field:
`isInvalid`, `isValid`, and (on validity) `invalidAt`. -/
theorem getStore_setValidityM_self (specs : List (String × MFieldSpec)) (s : MState)
    (f : String) (v : Bool) :
    getStore (setValidityM specs s f v) f =
      { (getStore s f) with
          isInvalid := some (!v), isValid := some v,
          invalidAt := (if v then none else (getStore s f).invalidAt) } := by
  simp only [setValidityM]
  repeat' split
  all_goals simp_all [getStore_setGroupValidityM]

theorem getStore_setValidityM_ne (specs : List (String × MFieldSpec)) (s : MState)
    (f' : String) (v : Bool) (f : String) (h : f' ≠ f) :
    getStore (setValidityM specs s f' v) f = getStore s f := by
  simp only [setValidityM]
  repeat' split
  all_goals simp_all [getStore_setGroupValidityM, getStore_putStore_ne _ _ _ _ h]

theorem lookupStr_mem {α : Type} (xs : List (String × α)) (k : String) (v : α)
    (h : lookupStr xs k = some v) : (k, v) ∈ xs := by
  induction xs with
  | nil => cases h
  | cons hd tl ih =>
      obtain ⟨k', v'⟩ := hd
      simp only [lookupStr] at h
      split at h
      · rename_i hk
        cases h
        subst hk
        exact List.mem_cons_self _ _
      · exact List.mem_cons_of_mem _ (ih h)

theorem lookupStr_groupUpd (xs : List (String × Bool)) (g g' : String) (b : Bool) :
    lookupStr (groupSet.groupUpd xs g b) g' =
      if g = g' then some b else lookupStr xs g' := by
  induction xs with
  | nil =>
      by_cases h : g = g' <;> simp [groupSet.groupUpd, lookupStr, h]
  | cons hd tl ih =>
      obtain ⟨k, v⟩ := hd
      simp only [groupSet.groupUpd]
      by_cases hk : k = g
      · subst hk
        by_cases hg : k = g'
        · subst hg; simp [lookupStr]
        · simp [lookupStr, hg, fun h => hg h]
      · simp only [if_neg hk, lookupStr]
        by_cases hg : k = g'
        · subst hg
          have : ¬ (g = k) := fun h => hk h.symm
          simp [this]
        · simp [hg, ih]

@[simp] theorem groupGet_groupSet_self (s : MState) (g : String) (b : Bool) :
    groupGet (groupSet s g b) g = some b := by
  simp [groupGet, groupSet, lookupStr_groupUpd]

@[simp] theorem groupGet_putStore (s : MState) (f : String) (u : FieldStore → FieldStore)
    (g : String) : groupGet (putStore s f u) g = groupGet s g := rfl

@[simp] theorem groupGet_setStateM (s : MState) (g : String) :
    groupGet (setStateM s) g = groupGet s g := rfl

@[simp] theorem groupWrites_putStore (s : MState) (f : String)
    (u : FieldStore → FieldStore) : (putStore s f u).groupWrites = s.groupWrites := rfl

@[simp] theorem groupWrites_setStateM (s : MState) :
    (setStateM s).groupWrites = s.groupWrites := rfl

@[simp] theorem groupWrites_groupSet (s : MState) (g : String) (b : Bool) :
    (groupSet s g b).groupWrites = s.groupWrites ++ [(g, b)] := rfl

/-- `_setGroupValidity`, under the library invariant that the field's
`isInvalid` has just been written to the negation of its new `isValid`,
takes exactly one of four paths: the loose-equality skip, the
recompute-to-`true` write, the recompute-refusal, or the poison-`false`
write (after which the recompute never fires, the field itself being
invalid). -/
theorem setGroupValidityM_cases (specs : List (String × MFieldSpec)) (s2 : MState)
    (f : String) (fd : MFieldSpec) (v : Bool)
    (hf : specFindM specs f = some fd)
    (hinv : (getStore s2 f).isInvalid = some (!v)) :
    (groupGet s2 (groupOfSpecM fd) = some v ∧ setGroupValidityM specs s2 f v = s2)
    ∨ (groupGet s2 (groupOfSpecM fd) ≠ some v ∧
        ((v = true ∧ allGroupValidM specs s2 (groupOfSpecM fd) = true
            ∧ setGroupValidityM specs s2 f v = groupSet s2 (groupOfSpecM fd) true)
         ∨ (v = true ∧ allGroupValidM specs s2 (groupOfSpecM fd) = false
            ∧ setGroupValidityM specs s2 f v = s2)
         ∨ (v = false
            ∧ setGroupValidityM specs s2 f v = groupSet s2 (groupOfSpecM fd) false))) := by
  have hmem : (f, fd) ∈ specs := lookupStr_mem _ _ _ hf
  have hallF : ∀ s' : MState, (getStore s' f).isInvalid = some true →
      allGroupValidM specs s' (groupOfSpecM fd) = false := by
    intro s' hst
    rcases hall : allGroupValidM specs s' (groupOfSpecM fd) with _ | _
    · rfl
    · exfalso
      have h2 := List.all_eq_true.mp hall (f, fd) hmem
      rw [if_neg (by simp : ¬ (groupOfSpecM fd ≠ groupOfSpecM fd))] at h2
      simp [hst] at h2
  cases v with
  | false =>
      have hstInv : (getStore (groupSet s2 (groupOfSpecM fd) false) f).isInvalid
          = some true := by simpa using hinv
      rcases hg : groupGet s2 (groupOfSpecM fd) with _ | b
      · exact .inr ⟨by simp, .inr (.inr ⟨rfl,
          by simp [setGroupValidityM, hf, hg, hallF _ hstInv]⟩)⟩
      · cases b with
        | false => exact .inl ⟨rfl, by simp [setGroupValidityM, hf, hg]⟩
        | true =>
            exact .inr ⟨by simp [hg], .inr (.inr ⟨rfl,
              by simp [setGroupValidityM, hf, hg, hallF _ hstInv]⟩)⟩
  | true =>
      rcases hg : groupGet s2 (groupOfSpecM fd) with _ | b
      · rcases hall : allGroupValidM specs s2 (groupOfSpecM fd) with _ | _
        · exact .inr ⟨by simp, .inr (.inl ⟨rfl, rfl,
            by simp [setGroupValidityM, hf, hg, hall]⟩)⟩
        · exact .inr ⟨by simp, .inl ⟨rfl, rfl,
            by simp [setGroupValidityM, hf, hg, hall]⟩⟩
      · cases b with
        | true => exact .inl ⟨rfl, by simp [setGroupValidityM, hf, hg]⟩
        | false =>
            rcases hall : allGroupValidM specs s2 (groupOfSpecM fd) with _ | _
            · exact .inr ⟨by simp [hg], .inr (.inl ⟨rfl, rfl,
                by simp [setGroupValidityM, hf, hg, hall]⟩)⟩
            · exact .inr ⟨by simp [hg], .inl ⟨rfl, rfl,
                by simp [setGroupValidityM, hf, hg, hall]⟩⟩

/-! ## Per-field preservation through the round machinery -/

@[simp] theorem getStore_withPending (s : MState) (x : List Pending) (f : String) :
    getStore { s with pending := x } f = getStore s f := rfl

@[simp] theorem getStore_withRounds (s : MState) (x : List Round) (f : String) :
    getStore { s with rounds := x } f = getStore s f := rfl

@[simp] theorem getStore_withCallLog (s : MState) (x : List (Nat × Bool)) (f : String) :
    getStore { s with callLog := x } f = getStore s f := rfl

@[simp] theorem getStore_withVaLog (s : MState) (x : List (Nat × Bool)) (f : String) :
    getStore { s with vaLog := x } f = getStore s f := rfl

@[simp] theorem getStore_withNextId (s : MState) (n : Nat) (f : String) :
    getStore { s with nextId := n } f = getStore s f := rfl

@[simp] theorem getStore_withNextIdCallLog (s : MState) (n : Nat)
    (x : List (Nat × Bool)) (f : String) :
    getStore { s with nextId := n, callLog := x } f = getStore s f := rfl

@[simp] theorem getStore_withNextIdRounds (s : MState) (n : Nat) (x : List Round)
    (f : String) :
    getStore { s with nextId := n, rounds := x } f = getStore s f := rfl

@[simp] theorem getStore_withJoins (s : MState) (x : List VAJoin) (f : String) :
    getStore { s with joins := x } f = getStore s f := rfl

theorem serial_putStore_keep (s : MState) (g : String) (u : FieldStore → FieldStore)
    (f : String) (hu : ∀ st, (u st).serial = st.serial) :
    (getStore (putStore s g u) f).serial = (getStore s f).serial := by
  by_cases h : g = f
  · subst h; simp [hu]
  · simp [getStore_putStore_ne _ _ _ _ h]

theorem messages_putStore_keep (s : MState) (g : String) (u : FieldStore → FieldStore)
    (f : String) (hu : ∀ st, (u st).messages = st.messages) :
    (getStore (putStore s g u) f).messages = (getStore s f).messages := by
  by_cases h : g = f
  · subst h; simp [hu]
  · simp [getStore_putStore_ne _ _ _ _ h]

@[simp] theorem serial_putStore_validatingNone (s : MState) (g f : String) :
    (getStore (putStore s g (fun st => { st with validating := none })) f).serial
      = (getStore s f).serial :=
  serial_putStore_keep s g _ f (fun _ => rfl)

@[simp] theorem messages_putStore_validatingNone (s : MState) (g f : String) :
    (getStore (putStore s g (fun st => { st with validating := none })) f).messages
      = (getStore s f).messages :=
  messages_putStore_keep s g _ f (fun _ => rfl)

theorem serial_setValidityM (specs : List (String × MFieldSpec)) (s : MState)
    (g : String) (v : Bool) (f : String) :
    (getStore (setValidityM specs s g v) f).serial = (getStore s f).serial := by
  by_cases h : g = f
  · subst h; rw [getStore_setValidityM_self]
  · rw [getStore_setValidityM_ne _ _ _ _ _ h]

theorem messages_setValidityM (specs : List (String × MFieldSpec)) (s : MState)
    (g : String) (v : Bool) (f : String) :
    (getStore (setValidityM specs s g v) f).messages = (getStore s f).messages := by
  by_cases h : g = f
  · subst h; rw [getStore_setValidityM_self]
  · rw [getStore_setValidityM_ne _ _ _ _ _ h]

theorem invalidAt_setValidityM_false (specs : List (String × MFieldSpec)) (s : MState)
    (g : String) (f : String) :
    (getStore (setValidityM specs s g false) f).invalidAt
      = (getStore s f).invalidAt := by
  by_cases h : g = f
  · subst h; rw [getStore_setValidityM_self]; simp
  · rw [getStore_setValidityM_ne _ _ _ _ _ h]

theorem serial_finalizeRound (specs : List (String × MFieldSpec)) (s : MState)
    (rid : Nat) (valid : Bool) (f : String) :
    (getStore (finalizeRound specs s rid valid) f).serial = (getStore s f).serial := by
  simp only [finalizeRound]
  split
  · rfl
  · rename_i r hr
    cases hp : r.parent <;>
      simp only [hp] <;> split <;>
        simp [serial_setValidityM, getStore_joinComplete]

theorem messages_finalizeRound (specs : List (String × MFieldSpec)) (s : MState)
    (rid : Nat) (valid : Bool) (f : String) :
    (getStore (finalizeRound specs s rid valid) f).messages
      = (getStore s f).messages := by
  simp only [finalizeRound]
  split
  · rfl
  · rename_i r hr
    cases hp : r.parent <;>
      simp only [hp] <;> split <;>
        simp [messages_setValidityM, getStore_joinComplete]

theorem invalidAt_putStore_keep (s : MState) (g : String) (u : FieldStore → FieldStore)
    (f : String) (hu : ∀ st, (u st).invalidAt = st.invalidAt) :
    (getStore (putStore s g u) f).invalidAt = (getStore s f).invalidAt := by
  by_cases h : g = f
  · subst h; simp [hu]
  · simp [getStore_putStore_ne _ _ _ _ h]

@[simp] theorem invalidAt_putStore_validatingNone (s : MState) (g f : String) :
    (getStore (putStore s g (fun st => { st with validating := none })) f).invalidAt
      = (getStore s f).invalidAt :=
  invalidAt_putStore_keep s g _ f (fun _ => rfl)

theorem invalidAt_finalizeRound_false (specs : List (String × MFieldSpec)) (s : MState)
    (rid : Nat) (f : String) :
    (getStore (finalizeRound specs s rid false) f).invalidAt
      = (getStore s f).invalidAt := by
  simp only [finalizeRound]
  split
  · rfl
  · rename_i r hr
    cases hp : r.parent <;>
      simp only [hp] <;> split <;>
        simp [invalidAt_setValidityM_false, getStore_joinComplete]

theorem serial_roundTaskComplete (specs : List (String × MFieldSpec)) (s : MState)
    (rid : Nat) (err : Bool) (f : String) :
    (getStore (roundTaskComplete specs s rid err) f).serial
      = (getStore s f).serial := by
  simp only [roundTaskComplete]
  repeat' split
  all_goals simp [serial_finalizeRound]

theorem messages_roundTaskComplete (specs : List (String × MFieldSpec)) (s : MState)
    (rid : Nat) (err : Bool) (f : String) :
    (getStore (roundTaskComplete specs s rid err) f).messages
      = (getStore s f).messages := by
  simp only [roundTaskComplete]
  repeat' split
  all_goals simp [messages_finalizeRound]

@[simp] theorem serial_pushMessageM (s : MState) (g : String) (m : String) (f : String) :
    (getStore (pushMessageM s g m) f).serial = (getStore s f).serial :=
  serial_putStore_keep s g _ f (fun _ => rfl)

@[simp] theorem serial_putStore_invalidAtSome (s : MState) (g : String) (mv : Val)
    (f : String) :
    (getStore (putStore s g (fun st => { st with invalidAt := some mv })) f).serial
      = (getStore s f).serial :=
  serial_putStore_keep s g _ f (fun _ => rfl)

theorem serial_settleCore (specs : List (String × MFieldSpec)) (s : MState)
    (p : Pending) (valid : Bool) (marker : Option Val) (f : String) :
    (getStore (settleCore specs s p valid marker) f).serial
      = (getStore s f).serial := by
  simp only [settleCore]
  rw [serial_roundTaskComplete]
  cases marker <;> repeat' split
  all_goals simp

theorem serial_launchOne (specs : List (String × MFieldSpec)) (s : MState)
    (rid : Nat) (f' : String) (sr : Nat) (value : Option Val) (vld : MValidation)
    (f : String) :
    (getStore (launchOne specs s rid f' sr value vld) f).serial
      = (getStore s f).serial := by
  simp only [launchOne]
  split
  · rw [serial_settleCore]; rfl
  · rfl

theorem serial_launchFold (specs : List (String × MFieldSpec)) (rid : Nat)
    (f' : String) (sr : Nat) (value : Option Val) (vs : List MValidation)
    (s : MState) (f : String) :
    (getStore (vs.foldl (fun acc vld => launchOne specs acc rid f' sr value vld) s)
        f).serial = (getStore s f).serial := by
  induction vs generalizing s with
  | nil => rfl
  | cons v0 rest ih => rw [List.foldl_cons, ih, serial_launchOne]

theorem serial_endLaunch (specs : List (String × MFieldSpec)) (s : MState)
    (rid : Nat) (f : String) :
    (getStore (endLaunch specs s rid) f).serial = (getStore s f).serial := by
  simp only [endLaunch]
  repeat' split
  all_goals simp [serial_finalizeRound]

/-- `_validate` strictly increments the field's serial, whatever the launch
does afterwards. -/
theorem serial_validateStart (specs : List (String × MFieldSpec)) (s : MState)
    (f : String) (parent : Option Nat) :
    (getStore (validateStartM specs s f parent) f).serial
      = (getStore s f).serial + 1 := by
  simp only [validateStartM]
  split
  · split
    · simp [getStore, putStore, lookupStr_storeUpd]
    · rw [getStore_joinComplete]
      simp [getStore, putStore, lookupStr_storeUpd]
  · rw [serial_endLaunch, serial_launchFold]
    simp [getStore, putStore, lookupStr_storeUpd]

theorem findRound_rid (s : MState) (rid : Nat) (r : Round)
    (h : findRound s rid = some r) : r.rid = rid := by
  have := List.find?_some h
  simpa using this

theorem find?_rounds_replace (rs : List Round) (rid : Nat) (r' : Round)
    (h : (rs.find? (fun r => r.rid = rid)).isSome) (hr : r'.rid = rid) :
    (rs.map (fun q => if q.rid = r'.rid then r' else q)).find?
        (fun r => r.rid = rid) = some r' := by
  induction rs with
  | nil => simp at h
  | cons hd tl ih =>
      by_cases hh : hd.rid = rid
      · have h1 : hd.rid = r'.rid := by rw [hr]; exact hh
        simp [List.find?_cons, h1, hr]
      · have h1 : ¬ hd.rid = r'.rid := by rw [hr]; exact hh
        have h2 : (tl.find? (fun r => r.rid = rid)).isSome := by
          simpa [List.find?_cons, hh] using h
        simp [List.find?_cons, h1, hh, ih h2]

theorem findRound_putRound (s : MState) (rid : Nat) (r' : Round)
    (h : (findRound s rid).isSome) (hr : r'.rid = rid) :
    findRound (putRound s r') rid = some r' :=
  find?_rounds_replace s.rounds rid r' h hr

theorem callLog_setGroupValidityM (specs : List (String × MFieldSpec)) (s : MState)
    (f : String) (v : Bool) :
    (setGroupValidityM specs s f v).callLog = s.callLog := by
  simp only [setGroupValidityM]
  repeat' split
  all_goals rfl

theorem callLog_setValidityM (specs : List (String × MFieldSpec)) (s : MState)
    (f : String) (v : Bool) :
    (setValidityM specs s f v).callLog = s.callLog := by
  simp only [setValidityM]
  repeat' split
  all_goals simp [callLog_setGroupValidityM, putStore, setStateM]

@[simp] theorem messages_putStore_invalidAtSome (s : MState) (g : String) (mv : Val)
    (f : String) :
    (getStore (putStore s g (fun st => { st with invalidAt := some mv })) f).messages
      = (getStore s f).messages :=
  messages_putStore_keep s g _ f (fun _ => rfl)

@[simp] theorem isValid_putStore_validatingNone (s : MState) (g f : String) :
    (getStore (putStore s g (fun st => { st with validating := none })) f).isValid
      = (getStore s f).isValid := by
  by_cases h : g = f
  · subst h; simp
  · simp [getStore_putStore_ne _ _ _ _ h]

@[simp] theorem isInvalid_putStore_validatingNone (s : MState) (g f : String) :
    (getStore (putStore s g (fun st => { st with validating := none })) f).isInvalid
      = (getStore s f).isInvalid := by
  by_cases h : g = f
  · subst h; simp
  · simp [getStore_putStore_ne _ _ _ _ h]

@[simp] theorem callLog_putStore (s : MState) (g : String)
    (u : FieldStore → FieldStore) : (putStore s g u).callLog = s.callLog := rfl

@[simp] theorem callLog_putRound (s : MState) (r : Round) :
    (putRound s r).callLog = s.callLog := rfl

@[simp] theorem findRound_withPending (s : MState) (x : List Pending) (rid : Nat) :
    findRound { s with pending := x } rid = findRound s rid := rfl

theorem invalidAt_roundTaskComplete_true (specs : List (String × MFieldSpec))
    (s : MState) (rid : Nat) (f : String) :
    (getStore (roundTaskComplete specs s rid true) f).invalidAt
      = (getStore s f).invalidAt := by
  simp only [roundTaskComplete]
  repeat' split
  all_goals first
  | simp [invalidAt_finalizeRound_false]
  | simp_all

/-- The final callback of a user round (`parent = none`): `_setValidity` with
the overall result, then `callback(valid)` appended to the log, whatever the
serial guard then decides about `validating`. -/
theorem finalizeRound_found (specs : List (String × MFieldSpec)) (s : MState)
    (rid : Nat) (valid : Bool) (r : Round)
    (hr : findRound s rid = some r) (hparent : r.parent = none) :
    (getStore (finalizeRound specs s rid valid) r.fieldName).isValid = some valid
    ∧ (getStore (finalizeRound specs s rid valid) r.fieldName).isInvalid
        = some (!valid)
    ∧ (finalizeRound specs s rid valid).callLog = s.callLog ++ [(r.rid, valid)] := by
  simp only [finalizeRound, hr, hparent]
  refine ⟨?_, ?_, ?_⟩ <;>
    (split <;> simp [getStore_setValidityM_self, callLog_setValidityM])

/-! ## Claims -/

/-- C4 (code bug): with no origin, the change handler computes the baseline
as `_.get(self.fields, field + 'default')` — the dot is missing — so for the
field `path` with spec default `'abc'` the lookup key is `pathdefault`,
which misses, and the baseline is undefined.  Setting `path.value` to
`'abc'`, deep-equal to the spec default, therefore records
`hasChanged = true`, where the claim's baseline (the spec's default) demands
`false`. -/
theorem claim4_missing_dot_baseline :
    vget (userSetValue specsDefault { model := psetup specsDefault none } "path"
        (.vstr "abc")).model ["path", "hasChanged"] = some (.vbool true)
    ∧ (specFind specsDefault "path").map (·.dflt) = some (some (.vstr "abc"))
    ∧ valBeqOpt (some (.vstr "abc")) (some (.vstr "abc")) = true
    ∧ fieldsGetBuggy specsDefault "pathdefault" = none :=
  ⟨rfl, rfl, rfl, rfl⟩

/-- C7: with the origin holding `a = "a"`, `c.d.f = "f"` and `id = "2"` and
the single field spec `c.d.f`, setup stores `"f"` as the field's value, and
`getValues()` reproduces the nested tree with `c.d.f` at the field's current
value and the sibling origin keys `a` and `id` copied through verbatim. -/
theorem claim7_nested_paths :
    vget (psetup specsDeep (some originDeep)) ["c", "d", "f", "value"] = some (.vstr "f")
    ∧ getValues (specsDeep.map (·.1)) (psetup specsDeep (some originDeep)) false
        = .vobj [("c", .vobj [("d", .vobj [("f", .vstr "f")])]),
                 ("a", .vstr "a"), ("id", .vstr "2")]
    ∧ ∀ v : Val,
        getValues (specsDeep.map (·.1))
            (userSetValue specsDeep stateDeep "c.d.f" v).model false
          = .vobj [("c", .vobj [("d", .vobj [("f", v)])]),
                   ("a", .vstr "a"), ("id", .vstr "2")] := by
  refine ⟨rfl, rfl, ?_⟩
  intro v
  cases v <;> rfl

/-- C6: `commit` is a no-op without an origin; `commit(true)` projects the
current field values onto the (identified) origin with no validity check;
`commit` without force runs `validateAll` (its model effects land) and, when
the overall result is invalid, leaves the origin completely unchanged. -/
theorem claim6_commit (specs : List (String × PFieldSpec)) (s : PState) :
    (s.origin = none → ∀ force hasCb, commit specs s force hasCb = s)
    ∧ (∀ og hasCb, s.origin = some og → (vget og ["id"]).isSome →
        (commit specs s true hasCb).origin
          = some (vsetEachTop og (getValues (specs.map (·.1)) s.model true)))
    ∧ (∀ hasCb, s.origin.isSome →
        (commit specs s false hasCb).model = (validateAllSync specs s.model).1)
    ∧ (∀ hasCb, (validateAllSync specs s.model).2 = false →
        (commit specs s false hasCb).origin = s.origin) := by
  refine ⟨?_, ?_, ?_, ?_⟩
  · intro h force hasCb
    simp [commit, h]
  · intro og hasCb h hid
    simp [commit, commitToModel, h, hid]
  · intro hasCb h
    obtain ⟨og, hog⟩ := Option.isSome_iff_exists.mp h
    by_cases hv : (validateAllSync specs s.model).2 <;>
      cases hasCb <;>
        simp [commit, commitToModel, hog, hv] <;> split <;> rfl
  · intro hasCb hv
    cases hog : s.origin <;> cases hasCb <;> simp [commit, hog, hv]

/-- C6 witness: the two-level commit fixture of the test suite, whose origin
carries an id and whose required field `c.e` is initially empty (hence
invalid). -/
theorem claim6_commit_witness :
    (stateCommit.origin = some originCommit)
    ∧ (vget originCommit ["id"]).isSome
    ∧ (validateAllSync specsCommit stateCommit.model).2 = false
    ∧ (commit specsCommit stateCommit true false).origin
        = some (vsetEachTop originCommit
            (getValues (specsCommit.map (·.1)) stateCommit.model true))
    ∧ (commit specsCommit stateCommit false true).origin = stateCommit.origin :=
  ⟨rfl, rfl, rfl,
   (claim6_commit specsCommit stateCommit).2.1 originCommit false rfl rfl,
   (claim6_commit specsCommit stateCommit).2.2.2 true rfl⟩

/-- C10: a forced `commit` with a callback never invokes it (the forced path
returns right after `_commitToModel`), while the unforced path (with an
origin) always invokes the callback with the overall validity. -/
theorem claim10_forced_commit_callback (specs : List (String × PFieldSpec)) (s : PState) :
    (∀ hasCb, (commit specs s true hasCb).callbackLog = s.callbackLog)
    ∧ (s.origin.isSome →
        (commit specs s false true).callbackLog
          = s.callbackLog ++ [(validateAllSync specs s.model).2]) := by
  constructor
  · intro hasCb
    cases hog : s.origin <;> simp [commit, commitToModel, hog] <;> split <;> rfl
  · intro h
    obtain ⟨og, hog⟩ := Option.isSome_iff_exists.mp h
    by_cases hv : (validateAllSync specs s.model).2 <;>
      simp [commit, commitToModel, hog, hv] <;> split <;> rfl

/-- C10 witness: the commit fixture, forced with a callback (no invocation)
and unforced with a callback (invoked with the overall validity `false`). -/
theorem claim10_forced_commit_callback_witness :
    stateCommit.origin.isSome
    ∧ (commit specsCommit stateCommit true true).callbackLog = stateCommit.callbackLog
    ∧ (commit specsCommit stateCommit false true).callbackLog
        = stateCommit.callbackLog ++ [(validateAllSync specsCommit stateCommit.model).2] :=
  ⟨rfl, (claim10_forced_commit_callback specsCommit stateCommit).1 true,
   (claim10_forced_commit_callback specsCommit stateCommit).2 rfl⟩

/-- C9: `_getRule` resolves a string reference through `options.rules`
first, then the default table, and otherwise throws an error naming the
reference; `_assignValidations` (run at field-spec assignment during
construction) accepts only rules that resolve to a regular expression or a
callable, and throws on any validation whose resolved rule is neither — so
the failure happens at construction, and validation only ever executes
checked rules. -/
theorem claim9_rule_resolution :
    (∀ (optRules : List (String × JsRule)) (ref : String) (r : JsRule),
        lookupStr optRules ref = some r → getRule optRules ref = .ok (some r))
    ∧ (∀ (optRules : List (String × JsRule)) (ref : String) (entry : DefaultEntry),
        lookupStr optRules ref = none →
        lookupStr defaultValidationsTable ref = some entry →
        getRule optRules ref = .ok entry.rule)
    ∧ (∀ (optRules : List (String × JsRule)) (ref : String),
        lookupStr optRules ref = none →
        lookupStr defaultValidationsTable ref = none →
        getRule optRules ref = .error ("Rule: \"" ++ ref ++
          "\" is not available. You need to add it as an option."))
    ∧ (∀ (optRules : List (String × JsRule)) (optMessages : List (String × String))
          (vs : List ValidationIn) (out : List ValidationOut),
        assignValidations optRules optMessages vs = .ok out →
        ∀ v ∈ out, ruleExecutable v.rule = true)
    ∧ (∀ (optRules : List (String × JsRule)) (optMessages : List (String × String))
          (vs : List ValidationIn),
        (∃ v ∈ vs, resolvesBad optRules v) →
        ∃ e, assignValidations optRules optMessages vs = .error e) := by
  refine ⟨?_, ?_, ?_, ?_, ?_⟩
  · intro optRules ref r h
    simp [getRule, h]
  · intro optRules ref entry h hd
    simp [getRule, h, hd]
  · intro optRules ref h hd
    simp [getRule, h, hd]
  · intro optRules optMessages vs
    induction vs with
    | nil =>
        intro out h v hv
        simp only [assignValidations] at h
        cases h
        cases hv
    | cons v0 rest ih =>
        intro out h v hv
        simp only [assignValidations] at h
        split at h
        · cases h
        · rename_i r hr
          split at h
          · rename_i hex
            split at h
            · rename_i out' hout
              cases h
              rcases List.mem_cons.mp hv with rfl | hv
              · exact hex
              · exact ih out' hout v hv
            · cases h
          · cases h
  · intro optRules optMessages vs
    induction vs with
    | nil =>
        rintro ⟨v, hv, _⟩
        cases hv
    | cons v0 rest ih =>
        rintro ⟨v, hv, hbad⟩
        rcases List.mem_cons.mp hv with rfl | hv
        · obtain ⟨r, hr, hexec⟩ := hbad
          refine ⟨"This rule is not (or does not point to) a RegEx or a function.", ?_⟩
          simp [assignValidations, hr, hexec]
        · cases hres : resolveRuleJS optRules v0.rule with
          | error e =>
              exact ⟨e, by simp [assignValidations, hres]⟩
          | ok r =>
              by_cases hex : ruleExecutable r = true
              · obtain ⟨e, he⟩ := ih ⟨v, hv, hbad⟩
                exact ⟨e, by simp [assignValidations, hres, hex, he]⟩
              · refine ⟨"This rule is not (or does not point to) a RegEx or a function.", ?_⟩
                simp [assignValidations, hres,
                  Bool.eq_false_iff.mpr hex]

/-- C9 witness: an instance rule wins over the table; `required` resolves
from the default table; an unknown name throws the error naming it; and the
`default` reference, whose table entry has no rule, throws at assignment. -/
theorem claim9_rule_resolution_witness :
    (lookupStr [("myRule", JsRule.funcRule "my")] "myRule" = some (.funcRule "my")
      ∧ getRule [("myRule", JsRule.funcRule "my")] "myRule" = .ok (some (.funcRule "my")))
    ∧ (lookupStr ([] : List (String × JsRule)) "required" = none
      ∧ getRule [] "required" = .ok (some (.funcRule "required")))
    ∧ getRule ([] : List (String × JsRule)) "nope"
        = .error "Rule: \"nope\" is not available. You need to add it as an option."
    ∧ ∃ e, assignValidations [] [] [{ rule := .strRef "default" }] = .error e :=
  ⟨⟨rfl, claim9_rule_resolution.1 [("myRule", JsRule.funcRule "my")] "myRule"
      (.funcRule "my") rfl⟩,
   ⟨rfl, claim9_rule_resolution.2.1 [] "required"
      { rule := some (.funcRule "required"), message := "Required field" } rfl rfl⟩,
   claim9_rule_resolution.2.2.1 [] "nope" rfl rfl,
   claim9_rule_resolution.2.2.2.2 [] [] [{ rule := .strRef "default" }]
     ⟨{ rule := .strRef "default" }, List.mem_cons_self _ _, ⟨.otherRule, rfl, rfl⟩⟩⟩

/-- C5: on a field's validity transition (the `_setValidity` write cascade),
with `g` the field's group: a transition to invalid leaves
`groups[g].isValid = false`; a `true` is written to `groups[g].isValid` only
when every spec field sharing `g` currently has a non-truthy `isInvalid`;
and no group write happens at all unless it changes the recorded value. -/
theorem claim5_group_aggregation (specs : List (String × MFieldSpec)) (s : MState)
    (f : String) (fd : MFieldSpec) (v : Bool)
    (hf : specFindM specs f = some fd) :
    ((v = false) →
        groupGet (setValidityM specs s f v) (groupOfSpecM fd) = some false)
    ∧ (((groupOfSpecM fd, true) ∈
          (setValidityM specs s f v).groupWrites.drop s.groupWrites.length) →
        ∀ q ∈ specs, groupOfSpecM q.2 = groupOfSpecM fd →
          (getStore (setValidityM specs s f v) q.1).isInvalid ≠ some true)
    ∧ ((setValidityM specs s f v).groupWrites.drop s.groupWrites.length ≠ [] →
        groupGet (setValidityM specs s f v) (groupOfSpecM fd)
          ≠ groupGet s (groupOfSpecM fd)) := by
  set s2 : MState := putStore (putStore s f (fun st => { st with isInvalid := some (!v) })) f
      (fun st => { st with isValid := some v }) with hs2
  have hinv : (getStore s2 f).isInvalid = some (!v) := by
    rw [hs2]; simp
  have hval : setValidityM specs s f v =
      setStateM (if v then putStore (setGroupValidityM specs s2 f v) f
          (fun st => { st with invalidAt := none })
        else setGroupValidityM specs s2 f v) := by
    simp [setValidityM, hf, hs2]
  have hgw2 : s2.groupWrites = s.groupWrites := by rw [hs2]; rfl
  have hgg2 : ∀ g', groupGet s2 g' = groupGet s g' := by intro g'; rw [hs2]; rfl
  rcases setGroupValidityM_cases specs s2 f fd v hf hinv with ⟨hg, heq⟩ | ⟨hne, hc⟩
  · refine ⟨?_, ?_, ?_⟩
    · intro hv; subst hv
      rw [hval, heq]
      simpa using hg
    · intro hmem'
      rw [hval, heq] at hmem'
      exfalso
      cases v <;> simp [hgw2, List.drop_length] at hmem'
    · intro hw
      rw [hval, heq] at hw
      exfalso
      cases v <;> simp [hgw2, List.drop_length] at hw
  · rcases hc with ⟨hv, hall, heq⟩ | ⟨hv, hall, heq⟩ | ⟨hv, heq⟩
    · -- recompute wrote `true`
      subst hv
      refine ⟨?_, ?_, ?_⟩
      · intro hv'; cases hv'
      · intro _ q hq hgq
        have hq2 : (getStore (setValidityM specs s f true) q.1).isInvalid
            = (getStore s2 q.1).isInvalid := by
          rw [hval, heq]
          by_cases hqf : q.1 = f
          · subst hqf
            simp [getStore_putStore_self]
          · simp [getStore_putStore_ne _ f q.1 _ (fun h => hqf h.symm)]
        rw [hq2]
        by_cases hqf : q.1 = f
        · subst hqf
          rw [hinv]
          simp
        · have h2 := List.all_eq_true.mp hall q hq
          rw [if_neg (by simp [hgq] : ¬ (groupOfSpecM q.2 ≠ groupOfSpecM fd))] at h2
          intro hcontra
          simp [hcontra] at h2
      · intro _
        have hL : groupGet (setValidityM specs s f true) (groupOfSpecM fd) = some true := by
          rw [hval, heq]; simp
        rw [hL, ← hgg2]
        exact fun h => hne h.symm
    · -- recompute refused to write
      subst hv
      refine ⟨?_, ?_, ?_⟩
      · intro hv'; cases hv'
      · intro hmem'
        rw [hval, heq] at hmem'
        exfalso
        simp [hgw2, List.drop_length] at hmem'
      · intro hw
        rw [hval, heq] at hw
        exfalso
        simp [hgw2, List.drop_length] at hw
    · -- the short-circuit `false` write
      subst hv
      refine ⟨?_, ?_, ?_⟩
      · intro _
        rw [hval, heq]
        simp
      · intro hmem'
        rw [hval, heq] at hmem'
        exfalso
        simp [hgw2] at hmem'
      · intro _
        have hL : groupGet (setValidityM specs s f false) (groupOfSpecM fd)
            = some false := by
          rw [hval, heq]; simp
        rw [hL, ← hgg2]
        exact fun h => hne h.symm

/-- C5 witness: two required fields in group `A`; field `a` (currently
invalid, like its sibling `b`) transitions to invalid from the freshly set-up
state. -/
theorem claim5_group_aggregation_witness :
    (specFindM specsGroup "a").isSome
    ∧ groupGet (setValidityM specsGroup (initStateM specsGroup) "a" false) "A"
        = some false := by
  refine ⟨rfl, ?_⟩
  exact (claim5_group_aggregation specsGroup (initStateM specsGroup) "a" _ false rfl).1 rfl

/-- C1 counterexample: two `validate("p")` calls on a field with one
callable rule; the second round's rule settles first (valid), then the first
round's rule settles stale.  The claim says the stale result is discarded
with no observable state mutation, so only the second round's outcome
(`isValid = true`) should be observable — but the stale settle errs its
round's join, whose final callback runs `_setValidity(p, false)`: the field
ends `isValid = some false`, `isInvalid = some true`, and the first round's
callback fires with `false` after the second round already reported `true`. -/
theorem claim1_counterexample :
    (runM specsOneAsync (initStateM specsOneAsync) traceStale).callLog
        = [(1, true), (0, false)]
    ∧ (getStore (runM specsOneAsync (initStateM specsOneAsync) traceStale) "p").isValid
        = some false
    ∧ (getStore (runM specsOneAsync (initStateM specsOneAsync) traceStale) "p").isInvalid
        = some true
    ∧ (getStore (runM specsOneAsync (initStateM specsOneAsync) traceStale) "p").messages
        = none :=
  ⟨rfl, rfl, rfl, rfl⟩

/-- C1 (amended): every `validate` call strictly increments the field's
serial, and a stale rule settle appends no message and sets no `invalidAt`
marker; however it is not free of observable effect: the stale settle errs
its round's still-pending join, whose final callback then sets the field
invalid (`isValid = false`, `isInvalid = true`) and reports `false`, so the
first round's forced-failure outcome can overwrite the second round's. -/
theorem claim1_amended :
    (∀ (specs : List (String × MFieldSpec)) (s : MState) (f : String),
        (getStore (stepM specs s (.validate f)) f).serial
          = (getStore s f).serial + 1)
    ∧ (∀ (specs : List (String × MFieldSpec)) (s : MState) (i : Nat) (p : Pending)
          (valid : Bool) (marker : Option Val),
        s.pending.get? i = some p →
        p.serial ≠ (getStore s p.fieldName).serial →
        (getStore (stepM specs s (.settle i valid marker)) p.fieldName).messages
            = (getStore s p.fieldName).messages
        ∧ (getStore (stepM specs s (.settle i valid marker)) p.fieldName).invalidAt
            = (getStore s p.fieldName).invalidAt)
    ∧ (∀ (specs : List (String × MFieldSpec)) (s : MState) (i : Nat) (p : Pending)
          (valid : Bool) (marker : Option Val) (r : Round),
        s.pending.get? i = some p →
        p.serial ≠ (getStore s p.fieldName).serial →
        findRound s p.rid = some r →
        r.settledOnce = false →
        r.fieldName = p.fieldName →
        r.parent = none →
        (getStore (stepM specs s (.settle i valid marker)) p.fieldName).isValid
            = some false
        ∧ (getStore (stepM specs s (.settle i valid marker)) p.fieldName).isInvalid
            = some true
        ∧ (stepM specs s (.settle i valid marker)).callLog
            = s.callLog ++ [(p.rid, false)]) := by
  have keyStep : ∀ (specs : List (String × MFieldSpec)) (s : MState) (i : Nat)
      (p : Pending) (valid : Bool) (marker : Option Val),
      s.pending.get? i = some p →
      p.serial ≠ (getStore s p.fieldName).serial →
      stepM specs s (.settle i valid marker)
        = roundTaskComplete specs { s with pending := s.pending.eraseIdx i }
            p.rid true := by
    intro specs s i p valid marker hp hst
    simp only [stepM, hp]
    cases marker <;> simp [settleCore, hst]
  refine ⟨?_, ?_, ?_⟩
  · intro specs s f
    exact serial_validateStart specs s f none
  · intro specs s i p valid marker hp hst
    rw [keyStep specs s i p valid marker hp hst]
    constructor
    · rw [messages_roundTaskComplete]; rfl
    · rw [invalidAt_roundTaskComplete_true]; rfl
  · intro specs s i p valid marker r hp hst hr hso hfield hparent
    have hr1 : findRound ({ s with pending := s.pending.eraseIdx i } : MState) p.rid
        = some r := by rw [findRound_withPending]; exact hr
    have hrid : r.rid = p.rid := findRound_rid _ _ _ hr
    have key3 : stepM specs s (.settle i valid marker)
        = finalizeRound specs
            (putRound ({ s with pending := s.pending.eraseIdx i } : MState)
              { r with outstanding := r.outstanding - 1 }) p.rid false := by
      rw [keyStep specs s i p valid marker hp hst]
      simp only [roundTaskComplete, hr1, hso]
      simp
    have hfind2 : findRound
        (putRound ({ s with pending := s.pending.eraseIdx i } : MState)
          { r with outstanding := r.outstanding - 1 }) p.rid
        = some { r with outstanding := r.outstanding - 1 } :=
      findRound_putRound _ _ _ (by rw [hr1]; rfl) hrid
    have hff := finalizeRound_found specs
      (putRound ({ s with pending := s.pending.eraseIdx i } : MState)
        { r with outstanding := r.outstanding - 1 }) p.rid false
      { r with outstanding := r.outstanding - 1 } hfind2 hparent
    rw [key3, ← hfield]
    exact ⟨hff.1, by simpa using hff.2.1, hff.2.2.trans (by simp [hrid])⟩

/-- C1 (amended) witness: the stale trace at its concrete intermediate
state — the second `validate` left serial 2, the first round's pending
settle carries serial 1 and its round is unsettled with no parent. -/
theorem claim1_amended_witness :
    (getStore (stepM specsOneAsync (initStateM specsOneAsync) (.validate "p")) "p").serial
        = (getStore (initStateM specsOneAsync) "p").serial + 1
    ∧ (runM specsOneAsync (initStateM specsOneAsync)
          [.validate "p", .validate "p"]).pending.get? 0
        = some { rid := 0, fieldName := "p", serial := 1, message := "Required field" }
    ∧ (getStore (stepM specsOneAsync
          (runM specsOneAsync (initStateM specsOneAsync) [.validate "p", .validate "p"])
          (.settle 0 true none)) "p").isValid = some false :=
  ⟨claim1_amended.1 specsOneAsync (initStateM specsOneAsync) "p", rfl,
   (claim1_amended.2.2 specsOneAsync
      (runM specsOneAsync (initStateM specsOneAsync) [.validate "p", .validate "p"])
      0 { rid := 0, fieldName := "p", serial := 1, message := "Required field" }
      true none
      { rid := 0, fieldName := "p", serial := 1, outstanding := 1,
        launching := false, settledOnce := false, parent := none }
      rfl (by decide) rfl rfl rfl rfl).1⟩

/-- C2 counterexample: one round over two failing callable rules declared
with messages `m1`, `m2`; the second rule settles first.  Both settles are
current (the serial never moves past 1), yet the messages list ends up
`[m2, m1]` — completion order — where the claim demands the declaration
order `[m1, m2]`. -/
theorem claim2_counterexample :
    (getStore (runM specsTwoAsync (initStateM specsTwoAsync) traceReverse) "p").messages
        = some ["m2", "m1"]
    ∧ (getStore (runM specsTwoAsync (initStateM specsTwoAsync) traceReverse) "p").serial
        = 1
    ∧ ["m2", "m1"] ≠ ["m1", "m2"] :=
  ⟨rfl, rfl, by decide⟩

/-- C2 (amended): each non-stale failing rule settle appends its message to
the end of the field's messages at the moment it settles, so the final order
is the rules' completion order, not their declaration order. -/
theorem claim2_amended (specs : List (String × MFieldSpec)) (s : MState) (i : Nat)
    (p : Pending) (marker : Option Val)
    (hp : s.pending.get? i = some p)
    (hc : p.serial = (getStore s p.fieldName).serial) :
    (getStore (stepM specs s (.settle i false marker)) p.fieldName).messages
      = some ((getStore s p.fieldName).messages.getD [] ++ [p.message]) := by
  simp only [stepM, hp]
  cases marker with
  | none =>
      simp only [settleCore]
      rw [messages_roundTaskComplete]
      simp [pushMessageM, hc]
  | some mv =>
      simp only [settleCore]
      rw [messages_roundTaskComplete]
      by_cases htr : truthy mv <;> simp [pushMessageM, hc, htr]

/-- C2 (amended) witness: the two-rule fixture after one `validate`; the
second rule's settle (current, failing) appends `m2` first. -/
theorem claim2_amended_witness :
    ((runM specsTwoAsync (initStateM specsTwoAsync) [.validate "p"]).pending.get? 1
        = some { rid := 0, fieldName := "p", serial := 1, message := "m2" })
    ∧ ((1 : Nat) = (getStore (runM specsTwoAsync (initStateM specsTwoAsync)
          [.validate "p"]) "p").serial)
    ∧ (getStore (stepM specsTwoAsync
          (runM specsTwoAsync (initStateM specsTwoAsync) [.validate "p"])
          (.settle 1 false none)) "p").messages
        = some ((getStore (runM specsTwoAsync (initStateM specsTwoAsync)
            [.validate "p"]) "p").messages.getD [] ++ ["m2"]) :=
  ⟨rfl, rfl,
   claim2_amended specsTwoAsync
     (runM specsTwoAsync (initStateM specsTwoAsync) [.validate "p"]) 1
     { rid := 0, fieldName := "p", serial := 1, message := "m2" } none rfl rfl⟩

/-! ## The single unsuperseded round -/

@[simp] theorem nextId_putStore (s : MState) (g : String) (u : FieldStore → FieldStore) :
    (putStore s g u).nextId = s.nextId := rfl

@[simp] theorem rounds_putStore (s : MState) (g : String) (u : FieldStore → FieldStore) :
    (putStore s g u).rounds = s.rounds := rfl

@[simp] theorem pending_putStore (s : MState) (g : String) (u : FieldStore → FieldStore) :
    (putStore s g u).pending = s.pending := rfl

@[simp] theorem pending_putRound (s : MState) (r : Round) :
    (putRound s r).pending = s.pending := rfl

@[simp] theorem rounds_groupSet (s : MState) (g : String) (b : Bool) :
    (groupSet s g b).rounds = s.rounds := rfl

@[simp] theorem pending_groupSet (s : MState) (g : String) (b : Bool) :
    (groupSet s g b).pending = s.pending := rfl

@[simp] theorem rounds_setStateM (s : MState) : (setStateM s).rounds = s.rounds := rfl

@[simp] theorem pending_setStateM (s : MState) : (setStateM s).pending = s.pending := rfl

theorem rounds_setGroupValidityM (specs : List (String × MFieldSpec)) (s : MState)
    (f : String) (v : Bool) : (setGroupValidityM specs s f v).rounds = s.rounds := by
  simp only [setGroupValidityM]
  repeat' split
  all_goals rfl

theorem pending_setGroupValidityM (specs : List (String × MFieldSpec)) (s : MState)
    (f : String) (v : Bool) : (setGroupValidityM specs s f v).pending = s.pending := by
  simp only [setGroupValidityM]
  repeat' split
  all_goals rfl

theorem rounds_setValidityM (specs : List (String × MFieldSpec)) (s : MState)
    (f : String) (v : Bool) : (setValidityM specs s f v).rounds = s.rounds := by
  simp only [setValidityM]
  repeat' split
  all_goals simp [rounds_setGroupValidityM]

theorem pending_setValidityM (specs : List (String × MFieldSpec)) (s : MState)
    (f : String) (v : Bool) : (setValidityM specs s f v).pending = s.pending := by
  simp only [setValidityM]
  repeat' split
  all_goals simp [pending_setGroupValidityM]

theorem rounds_joinComplete (s : MState) (jid : Nat) (err : Bool) :
    (joinComplete s jid err).rounds = s.rounds := by
  simp only [joinComplete]
  repeat' split
  all_goals simp [putJoin]

theorem pending_joinComplete (s : MState) (jid : Nat) (err : Bool) :
    (joinComplete s jid err).pending = s.pending := by
  simp only [joinComplete]
  repeat' split
  all_goals simp [putJoin]

theorem findRound_singleton (s : MState) (r : Round) (rid : Nat)
    (h : s.rounds = [r]) (hr : r.rid = rid) : findRound s rid = some r := by
  simp [findRound, h, hr]

theorem putRound_singleton (s : MState) (r r' : Round)
    (h : s.rounds = [r]) (hr : r.rid = r'.rid) :
    (putRound s r').rounds = [r'] := by
  simp [putRound, h, hr]

/-- The final round callback on a one-round state: its effect on the round
list, the pending list and the field's store. -/
theorem finalizeRound_singleton (specs : List (String × MFieldSpec)) (s : MState)
    (rid : Nat) (valid : Bool) (r : Round) (f : String)
    (hrounds : s.rounds = [r]) (hrid : r.rid = rid) (hparent : r.parent = none)
    (hf : r.fieldName = f) :
    (finalizeRound specs s rid valid).rounds = [{ r with settledOnce := true }]
    ∧ (finalizeRound specs s rid valid).pending = s.pending
    ∧ (getStore (finalizeRound specs s rid valid) f).serial
        = (getStore s f).serial
    ∧ (getStore (finalizeRound specs s rid valid) f).isValid = some valid
    ∧ (getStore (finalizeRound specs s rid valid) f).isInvalid
        = some (!valid)
    ∧ (getStore (finalizeRound specs s rid valid) f).messages
        = (getStore s f).messages := by
  subst hf
  simp only [finalizeRound, findRound_singleton s r rid hrounds hrid, hparent]
  have hput : (putRound s { r with settledOnce := true, parent := none }).rounds
      = [{ r with settledOnce := true, parent := none }] :=
    putRound_singleton s r _ hrounds rfl
  refine ⟨?_, ?_, ?_, ?_, ?_, ?_⟩
  · split <;>
      simp [hput, hparent, rounds_setValidityM]
  · split <;>
      simp [pending_setValidityM]
  · split <;>
      (simp only [serial_putStore_validatingNone, getStore_withCallLog]
       rw [serial_setValidityM]
       simp)
  · split <;>
      (simp only [isValid_putStore_validatingNone, getStore_withCallLog]
       rw [getStore_setValidityM_self])
  · split <;>
      (simp only [isInvalid_putStore_validatingNone, getStore_withCallLog]
       rw [getStore_setValidityM_self])
  · split <;>
      (simp only [messages_putStore_validatingNone, getStore_withCallLog]
       rw [messages_setValidityM]
       simp)

/-- `_check`'s `setValidity` body for a current settle: push the message on
failure, possibly record the marker, leaving serial/validity alone and then
hand the task error flag to the round join. -/
theorem settleCore_shape (specs : List (String × MFieldSpec)) (s : MState)
    (p : Pending) (valid : Bool) (marker : Option Val) (f : String)
    (hpf : p.fieldName = f)
    (hcur : p.serial = (getStore s f).serial) :
    ∃ s2 : MState, settleCore specs s p valid marker
        = roundTaskComplete specs s2 p.rid (!valid)
      ∧ s2.rounds = s.rounds ∧ s2.pending = s.pending
      ∧ (getStore s2 f).serial = (getStore s f).serial
      ∧ (getStore s2 f).isValid = (getStore s f).isValid
      ∧ (getStore s2 f).isInvalid = (getStore s f).isInvalid
      ∧ (getStore s2 f).messages
          = (if valid then (getStore s f).messages
             else some ((getStore s f).messages.getD [] ++ [p.message])) := by
  subst hpf
  simp only [settleCore, hcur]
  cases marker with
  | none =>
      cases valid with
      | true => exact ⟨s, by simp, rfl, rfl, rfl, rfl, rfl, by simp⟩
      | false =>
          refine ⟨pushMessageM s p.fieldName p.message, by simp, rfl, rfl, ?_, ?_, ?_, ?_⟩
            <;> simp [pushMessageM]
  | some mv =>
      by_cases htr : truthy mv
      · cases valid with
        | true =>
            refine ⟨putStore s p.fieldName (fun st => { st with invalidAt := some mv }),
              by simp [htr], rfl, rfl, ?_, ?_, ?_, ?_⟩ <;> simp
        | false =>
            refine ⟨putStore (pushMessageM s p.fieldName p.message) p.fieldName
                (fun st => { st with invalidAt := some mv }),
              by simp [htr], rfl, rfl, ?_, ?_, ?_, ?_⟩ <;>
              simp [pushMessageM]
      · cases valid with
        | true => exact ⟨s, by simp [htr], rfl, rfl, rfl, rfl, rfl, by simp⟩
        | false =>
            refine ⟨pushMessageM s p.fieldName p.message, by simp [htr], rfl, rfl,
              ?_, ?_, ?_, ?_⟩ <;> simp [pushMessageM]

/-- One task of the unique unsuperseded round completing (the settle's store
writes already applied): the invariant is maintained, in launch or settle
phase. -/
theorem roundTaskComplete_inv (specs : List (String × MFieldSpec)) (s2 : MState)
    (f : String) (rid sr : Nat) (valid : Bool) (L : Bool) (r : Round)
    (hser : (getStore s2 f).serial = sr)
    (hpwf : pendingWF f rid sr s2)
    (hrounds : s2.rounds = [r])
    (hrid : r.rid = rid) (hfield : r.fieldName = f) (hrser : r.serial = sr)
    (hlaunch : r.launching = L)
    (hout : r.outstanding = s2.pending.length + 1)
    (hparent : r.parent = none)
    (hbr : (r.settledOnce = false ∧ valid = true ∧ (getStore s2 f).messages = none)
      ∨ (r.settledOnce = false ∧ valid = false
          ∧ ∃ ms, (getStore s2 f).messages = some ms ∧ ms ≠ [])
      ∨ (r.settledOnce = true ∧ (getStore s2 f).isValid = some false
          ∧ (getStore s2 f).isInvalid = some true
          ∧ ∃ ms, (getStore s2 f).messages = some ms ∧ ms ≠ [])) :
    (if L then roundInvL f rid sr (roundTaskComplete specs s2 rid (!valid))
     else roundInvS f rid sr (roundTaskComplete specs s2 rid (!valid))) := by
  have hfind : findRound s2 rid = some r := findRound_singleton _ _ _ hrounds hrid
  have hput1 : (putRound s2 { r with outstanding := r.outstanding - 1 }).rounds
      = [{ r with outstanding := r.outstanding - 1 }] :=
    putRound_singleton _ _ _ hrounds rfl
  have hfsF := finalizeRound_singleton specs
    (putRound s2 { r with outstanding := r.outstanding - 1 }) rid false
    { r with outstanding := r.outstanding - 1 } f hput1 hrid hparent hfield
  have hfsT := finalizeRound_singleton specs
    (putRound s2 { r with outstanding := r.outstanding - 1 }) rid true
    { r with outstanding := r.outstanding - 1 } f hput1 hrid hparent hfield
  rcases hbr with ⟨hso, hv, hmsg⟩ | ⟨hso, hv, ms, hmsg, hne⟩ | ⟨hso, hvv, hii, ms, hmsg, hne⟩
  · -- unsettled, error-free completion
    subst hv
    cases L with
    | true =>
        rw [if_pos rfl]
        simp only [roundTaskComplete, hfind]
        rw [if_neg (by simp [hso])]
        rw [if_neg (by simp)]
        rw [if_neg (by simp [hlaunch])]
        exact ⟨by simpa using hser, fun q hq => hpwf q (by simpa using hq),
          { r with outstanding := r.outstanding - 1 }, hput1, hrid, hfield, hrser,
          hlaunch, by simp [hout], hparent, Or.inl ⟨hso, by simpa using hmsg⟩⟩
    | false =>
        rw [if_neg (by simp)]
        simp only [roundTaskComplete, hfind]
        rw [if_neg (by simp [hso])]
        rw [if_neg (by simp)]
        by_cases hz : r.outstanding - 1 = 0
        · have hpe : s2.pending = [] := List.length_eq_zero.mp (by omega)
          rw [if_pos (by simp [hlaunch, hz])]
          refine ⟨by rw [hfsT.2.2.1]; simpa using hser,
            fun q hq => hpwf q (by
              rw [hfsT.2.1, pending_putRound] at hq
              exact hq),
            { r with outstanding := r.outstanding - 1, settledOnce := true },
            hfsT.1, hrid, hfield, hrser, hlaunch, ?_, hparent, ?_⟩
          · rw [hfsT.2.1, pending_putRound, hpe]
            simpa using hz
          · refine Or.inr (Or.inl ⟨rfl, hfsT.2.2.2.1, by simpa using hfsT.2.2.2.2.1,
              ?_, ?_⟩)
            · rw [hfsT.2.2.2.2.2]
              simpa using hmsg
            · rw [hfsT.2.1, pending_putRound, hpe]
        · rw [if_neg (by simp [hlaunch, hz])]
          exact ⟨by simpa using hser, fun q hq => hpwf q (by simpa using hq),
            { r with outstanding := r.outstanding - 1 }, hput1, hrid, hfield, hrser,
            hlaunch, by simp [hout], hparent, Or.inl ⟨hso, by simpa using hmsg⟩⟩
  · -- unsettled, failing completion: the error fires the final callback now
    subst hv
    have hserF : (getStore (finalizeRound specs
          (putRound s2 { r with outstanding := r.outstanding - 1 }) rid false)
        f).serial = sr := by
      rw [hfsF.2.2.1]; simpa using hser
    have hpendF : (finalizeRound specs
          (putRound s2 { r with outstanding := r.outstanding - 1 }) rid false).pending
        = s2.pending := by
      rw [hfsF.2.1, pending_putRound]
    have hmsgF : (getStore (finalizeRound specs
          (putRound s2 { r with outstanding := r.outstanding - 1 }) rid false)
        f).messages = some ms := by
      rw [hfsF.2.2.2.2.2]
      simpa using hmsg
    cases L with
    | true =>
        rw [if_pos rfl]
        simp only [roundTaskComplete, hfind]
        rw [if_neg (by simp [hso])]
        rw [if_pos (by simp)]
        exact ⟨hserF, fun q hq => hpwf q (by rw [hpendF] at hq; exact hq),
          { r with outstanding := r.outstanding - 1, settledOnce := true },
          hfsF.1, hrid, hfield, hrser, hlaunch,
          by rw [hpendF]; simp [hout], hparent,
          Or.inr ⟨rfl, hfsF.2.2.2.1, by simpa using hfsF.2.2.2.2.1, ms, hmsgF, hne⟩⟩
    | false =>
        rw [if_neg (by simp)]
        simp only [roundTaskComplete, hfind]
        rw [if_neg (by simp [hso])]
        rw [if_pos (by simp)]
        exact ⟨hserF, fun q hq => hpwf q (by rw [hpendF] at hq; exact hq),
          { r with outstanding := r.outstanding - 1, settledOnce := true },
          hfsF.1, hrid, hfield, hrser, hlaunch,
          by rw [hpendF]; simp [hout], hparent,
          Or.inr (Or.inr ⟨rfl, hfsF.2.2.2.1, by simpa using hfsF.2.2.2.2.1,
            ms, hmsgF, hne⟩)⟩
  · -- already settled: the once-wrapped callback ignores the completion
    cases L with
    | true =>
        rw [if_pos rfl]
        simp only [roundTaskComplete, hfind]
        rw [if_pos hso]
        exact ⟨by simpa using hser, fun q hq => hpwf q (by simpa using hq),
          { r with outstanding := r.outstanding - 1 }, hput1, hrid, hfield, hrser,
          hlaunch, by simp [hout], hparent,
          Or.inr ⟨hso, by simpa using hvv, by simpa using hii, ms,
            by simpa using hmsg, hne⟩⟩
    | false =>
        rw [if_neg (by simp)]
        simp only [roundTaskComplete, hfind]
        rw [if_pos hso]
        exact ⟨by simpa using hser, fun q hq => hpwf q (by simpa using hq),
          { r with outstanding := r.outstanding - 1 }, hput1, hrid, hfield, hrser,
          hlaunch, by simp [hout], hparent,
          Or.inr (Or.inr ⟨hso, by simpa using hvv, by simpa using hii, ms,
            by simpa using hmsg, hne⟩)⟩

/-- Delivering one pending settle to a state in settle phase keeps the
single-round invariant. -/
theorem stepM_settle_inv (specs : List (String × MFieldSpec)) (s : MState)
    (f : String) (rid sr i : Nat) (valid : Bool) (marker : Option Val)
    (hinv : roundInvS f rid sr s) :
    roundInvS f rid sr (stepM specs s (.settle i valid marker)) := by
  obtain ⟨hser, hpwf, r, hrounds, hrid, hfield, hrser, hlaunch, hout, hparent, hbr⟩ := hinv
  cases hp : s.pending.get? i with
  | none =>
      simp only [stepM, hp]
      exact ⟨hser, hpwf, r, hrounds, hrid, hfield, hrser, hlaunch, hout, hparent, hbr⟩
  | some p =>
      simp only [stepM, hp]
      have hpmem : p ∈ s.pending := List.get?_mem hp
      obtain ⟨hprid, hpf, hpsr⟩ := hpwf p hpmem
      have hilt : i < s.pending.length := by
        rcases List.get?_eq_some.mp hp with ⟨h1, _⟩
        exact h1
      have hcur : p.serial
          = (getStore { s with pending := s.pending.eraseIdx i } f).serial := by
        rw [getStore_withPending, hser, hpsr]
      obtain ⟨s2, heq, hrounds2, hpend2, hser2, hvv2, hii2, hmsg2⟩ :=
        settleCore_shape specs { s with pending := s.pending.eraseIdx i } p valid marker
          f hpf hcur
      rw [getStore_withPending] at hser2 hvv2 hii2 hmsg2
      have hpend2' : s2.pending = s.pending.eraseIdx i := hpend2
      have hlen : (s.pending.eraseIdx i).length = s.pending.length - 1 := by
        rw [List.length_eraseIdx]
        simp [hilt]
      have key := roundTaskComplete_inv specs s2 f rid sr valid false r
        (by rw [hser2]; exact hser)
        (fun q hq => hpwf q (List.mem_of_mem_eraseIdx (hpend2' ▸ hq)))
        (hrounds2.trans hrounds) hrid hfield hrser hlaunch
        (by rw [hpend2', hlen, hout]; omega)
        hparent ?hbr
      case hbr =>
        rcases hbr with ⟨hso, hmA⟩ | ⟨hso, _, _, _, hpnil⟩ | ⟨hso, hvv, hii, ms, hms, hne⟩
        · cases valid with
          | true =>
              refine Or.inl ⟨hso, rfl, ?_⟩
              rw [hmsg2]
              simpa using hmA
          | false =>
              refine Or.inr (Or.inl ⟨hso, rfl, [p.message], ?_, by simp⟩)
              rw [hmsg2]
              simp [hmA]
        · rw [hpnil] at hp
          simp at hp
        · cases valid with
          | true =>
              refine Or.inr (Or.inr ⟨hso, hvv2.trans hvv, hii2.trans hii, ms, ?_, hne⟩)
              rw [hmsg2]
              simpa using hms
          | false =>
              refine Or.inr (Or.inr ⟨hso, hvv2.trans hvv, hii2.trans hii,
                ms ++ [p.message], ?_, by simp⟩)
              rw [hmsg2]
              simp [hms]
      rw [heq, hprid]
      simpa using key

@[simp] theorem pending_bumpOutstanding (s : MState) (rid : Nat) :
    (bumpOutstanding s rid).pending = s.pending := rfl

/-- Bumping the unique round's counter. -/
theorem bumpOutstanding_rounds_singleton (s : MState) (rid : Nat) (r : Round)
    (hrounds : s.rounds = [r]) (hrid : r.rid = rid) :
    (bumpOutstanding s rid).rounds = [{ r with outstanding := r.outstanding + 1 }] := by
  simp [bumpOutstanding, hrounds, hrid]

/-- Launching one validation during the launch loop keeps the launch-phase
invariant: a callable becomes a pending task, a regular expression settles
synchronously through the same completion path. -/
theorem launchOne_invL (specs : List (String × MFieldSpec)) (s : MState)
    (f : String) (rid sr : Nat) (value : Option Val) (vld : MValidation)
    (hinv : roundInvL f rid sr s) :
    roundInvL f rid sr (launchOne specs s rid f sr value vld) := by
  obtain ⟨hser, hpwf, r, hrounds, hrid, hfield, hrser, hlaunch, hout, hparent, hbr⟩ := hinv
  have hbrounds := bumpOutstanding_rounds_singleton s rid r hrounds hrid
  cases hrule : vld.rule with
  | funcRule =>
      simp only [launchOne, hrule]
      refine ⟨by simpa using hser, ?_, { r with outstanding := r.outstanding + 1 },
        by simpa using hbrounds, hrid, hfield, hrser, hlaunch, ?_, hparent, ?_⟩
      · intro q hq
        simp only [pending_bumpOutstanding] at hq
        rcases List.mem_append.mp hq with hq | hq
        · exact hpwf q hq
        · rcases List.mem_singleton.mp hq with rfl
          exact ⟨rfl, rfl, rfl⟩
      · simp [hout]
      · rcases hbr with ⟨hso, hm⟩ | ⟨hso, hvv, hii, ms, hms, hne⟩
        · exact Or.inl ⟨hso, by simpa using hm⟩
        · exact Or.inr ⟨hso, by simpa using hvv, by simpa using hii, ms,
            by simpa using hms, hne⟩
  | regexRule test =>
      simp only [launchOne, hrule]
      have hcur : sr = (getStore (bumpOutstanding s rid) f).serial := by
        simpa using hser.symm
      obtain ⟨s2, heq, hrounds2, hpend2, hser2, hvv2, hii2, hmsg2⟩ :=
        settleCore_shape specs (bumpOutstanding s rid)
          { rid, fieldName := f, serial := sr, message := vld.message }
          (test value) none f rfl hcur
      have key := roundTaskComplete_inv specs s2 f rid sr (test value) true
        { r with outstanding := r.outstanding + 1 }
        (by rw [hser2]; simpa using hser)
        (fun q hq => hpwf q (by
          rw [hpend2, pending_bumpOutstanding] at hq
          exact hq))
        (hrounds2.trans hbrounds) hrid hfield hrser hlaunch
        (by rw [hpend2, pending_bumpOutstanding]; simp [hout])
        hparent ?hbr
      case hbr =>
        rw [hpend2] at *
        rcases hbr with ⟨hso, hm⟩ | ⟨hso, hvv, hii, ms, hms, hne⟩
        · have hm2 : (getStore (bumpOutstanding s rid) f).messages = none := by
            simpa using hm
          cases hv : test value with
          | true =>
              refine Or.inl ⟨hso, rfl, ?_⟩
              rw [hmsg2, hv, hm2]
              simp
          | false =>
              refine Or.inr (Or.inl ⟨hso, rfl, [vld.message], ?_, by simp⟩)
              rw [hmsg2, hv, hm2]
              simp
        · have hms2 : (getStore (bumpOutstanding s rid) f).messages = some ms := by
            simpa using hms
          cases hv : test value with
          | true =>
              refine Or.inr (Or.inr ⟨hso, hvv2.trans (by simpa using hvv),
                hii2.trans (by simpa using hii), ms, ?_, hne⟩)
              rw [hmsg2, hv, hms2]
              simp
          | false =>
              refine Or.inr (Or.inr ⟨hso, hvv2.trans (by simpa using hvv),
                hii2.trans (by simpa using hii), ms ++ [vld.message], ?_, by simp⟩)
              rw [hmsg2, hv, hms2]
              simp
      rw [heq]
      simpa using key

/-- The whole launch loop keeps the launch-phase invariant. -/
theorem launchFold_invL (specs : List (String × MFieldSpec)) (vs : List MValidation)
    (s : MState) (f : String) (rid sr : Nat) (value : Option Val)
    (hinv : roundInvL f rid sr s) :
    roundInvL f rid sr
      (vs.foldl (fun acc vld => launchOne specs acc rid f sr value vld) s) := by
  induction vs generalizing s with
  | nil => exact hinv
  | cons v vs ih =>
      exact ih (launchOne specs s rid f sr value v)
        (launchOne_invL specs s f rid sr value v hinv)

/-- `async.parallel` leaving its launch loop: the success callback fires when
everything already settled, and the state enters the settle phase. -/
theorem endLaunch_invS (specs : List (String × MFieldSpec)) (s : MState)
    (f : String) (rid sr : Nat) (hinv : roundInvL f rid sr s) :
    roundInvS f rid sr (endLaunch specs s rid) := by
  obtain ⟨hser, hpwf, r, hrounds, hrid, hfield, hrser, hlaunch, hout, hparent, hbr⟩ := hinv
  have hfind : findRound s rid = some r := findRound_singleton _ _ _ hrounds hrid
  have hput : (putRound s { r with launching := false }).rounds
      = [{ r with launching := false }] := putRound_singleton _ _ _ hrounds rfl
  simp only [endLaunch, hfind]
  rcases hbr with ⟨hso, hm⟩ | ⟨hso, hvv, hii, ms, hms, hne⟩
  · by_cases hz : r.outstanding = 0
    · have hpe : s.pending = [] := List.length_eq_zero.mp (by omega)
      rw [if_pos (by simp [hso, hz])]
      have hfs := finalizeRound_singleton specs (putRound s { r with launching := false })
        rid true { r with launching := false } f hput hrid hparent hfield
      refine ⟨by rw [hfs.2.2.1]; simpa using hser,
        fun q hq => hpwf q (by
          rw [hfs.2.1, pending_putRound] at hq
          exact hq),
        { r with launching := false, settledOnce := true },
        hfs.1, hrid, hfield, hrser, rfl, ?_, hparent,
        Or.inr (Or.inl ⟨rfl, hfs.2.2.2.1, by simpa using hfs.2.2.2.2.1, ?_, ?_⟩)⟩
      · rw [hfs.2.1, pending_putRound, hpe]
        simpa using hz
      · rw [hfs.2.2.2.2.2]
        simpa using hm
      · rw [hfs.2.1, pending_putRound, hpe]
    · rw [if_neg (by simp [hz])]
      exact ⟨by simpa using hser, fun q hq => hpwf q (by simpa using hq),
        { r with launching := false }, hput, hrid, hfield, hrser, rfl,
        by simpa using hout, hparent, Or.inl ⟨hso, by simpa using hm⟩⟩
  · rw [if_neg (by simp [hso])]
    exact ⟨by simpa using hser, fun q hq => hpwf q (by simpa using hq),
      { r with launching := false }, hput, hrid, hfield, hrser, rfl,
      by simpa using hout, hparent,
      Or.inr (Or.inr ⟨hso, by simpa using hvv, by simpa using hii, ms,
        by simpa using hms, hne⟩)⟩

theorem stores_putStore (s : MState) (g : String) (u : FieldStore → FieldStore) :
    (putStore s g u).stores = putStore.storeUpd s.stores g u := rfl

theorem getStore_stores (s : MState) (f : String) :
    getStore s f = (lookupStr s.stores f).getD {} := rfl

/-- `_validate` on a field with declared validations, from a state with no
round and no pending task: it increments the serial, builds one round for it
and leaves the settle-phase invariant holding at the new serial. -/
theorem validateStartM_invS (specs : List (String × MFieldSpec)) (s0 : MState)
    (f : String) (vs : List MValidation)
    (hrounds0 : s0.rounds = []) (hpend0 : s0.pending = [])
    (hvs : (specFindM specs f).bind (fun sp => sp.validations) = some vs) :
    roundInvS f s0.nextId ((getStore s0 f).serial + 1)
      (validateStartM specs s0 f none) := by
  simp only [validateStartM]
  rw [hvs]
  simp only [getStore_putStore_self]
  refine endLaunch_invS specs _ f s0.nextId ((getStore s0 f).serial + 1)
    (launchFold_invL specs vs _ f s0.nextId ((getStore s0 f).serial + 1) _ ?_)
  refine ⟨by simp [getStore_stores, stores_putStore, lookupStr_storeUpd], ?_,
    { rid := s0.nextId, fieldName := f, serial := (getStore s0 f).serial + 1,
      outstanding := 0, launching := true, settledOnce := false, parent := none },
    by simp [hrounds0], rfl, rfl, rfl, rfl, by simp [hpend0], rfl,
    Or.inl ⟨rfl, by simp [getStore_stores, stores_putStore, lookupStr_storeUpd]⟩⟩
  intro q hq
  simp [hpend0] at hq

/-- A trace of settle deliveries keeps the settle-phase invariant. -/
theorem runM_settles_invS (specs : List (String × MFieldSpec)) (cmds : List Cmd)
    (s : MState) (f : String) (rid sr : Nat)
    (hcmds : ∀ c ∈ cmds, isSettleCmd c = true)
    (hinv : roundInvS f rid sr s) :
    roundInvS f rid sr (runM specs s cmds) := by
  induction cmds generalizing s with
  | nil => exact hinv
  | cons c cmds ih =>
      have hc := hcmds c (List.mem_cons_self c cmds)
      cases c with
      | settle i valid marker =>
          exact ih (stepM specs s (.settle i valid marker))
            (fun d hd => hcmds d (List.mem_cons_of_mem _ hd))
            (stepM_settle_inv specs s f rid sr i valid marker hinv)
      | validate g => simp [isSettleCmd] at hc
      | setInvalidCall g msg => simp [isSettleCmd] at hc
      | validateAll => simp [isSettleCmd] at hc

/-- C8 counterexample: two `validate("p")` calls on a field with one
callable rule, then only the first round's rule settles.  The stale settle
errs the first round's join, whose final callback runs
`_setValidity("p", false)` and resolves the first `validate` call with
`false` — yet `messages` was deleted by the second `validate` and the stale
guard prevented any push, so the call resolves with `isValid = some false`
and an empty `messages`, refuting `messages.length == 0 <=> isValid ==
true` at resolution time. -/
theorem claim8_counterexample :
    (runM specsOneAsync (initStateM specsOneAsync) traceSupersede).callLog
        = [(0, false)]
    ∧ (getStore (runM specsOneAsync (initStateM specsOneAsync) traceSupersede)
          "p").messages = none
    ∧ (getStore (runM specsOneAsync (initStateM specsOneAsync) traceSupersede)
          "p").isValid = some false
    ∧ (getStore (runM specsOneAsync (initStateM specsOneAsync) traceSupersede)
          "p").isInvalid = some true :=
  ⟨rfl, rfl, rfl, rfl⟩

/-- C8 (amended): for a field with declared validations, consider a
`validate(f)` call made with no other round or pending task in flight, and
let the environment deliver any sequence of pending settles.  Once the
round's final callback has fired (`settledOnce`), the field's flags are
coherent — `isValid = some v` with `isInvalid = some (!v)` — and its
messages are empty exactly when `v` is `true`.  The unrestricted claim is
refuted by `claim8_counterexample`, where a superseding `validate` is in
flight. -/
theorem claim8_amended (specs : List (String × MFieldSpec)) (s0 : MState)
    (f : String) (vs : List MValidation) (cmds : List Cmd) (r : Round)
    (hrounds0 : s0.rounds = []) (hpend0 : s0.pending = [])
    (hvs : (specFindM specs f).bind (fun sp => sp.validations) = some vs)
    (hcmds : ∀ c ∈ cmds, isSettleCmd c = true)
    (hr : (runM specs (validateStartM specs s0 f none) cmds).rounds = [r])
    (hsettled : r.settledOnce = true) :
    ∃ v, (getStore (runM specs (validateStartM specs s0 f none) cmds) f).isValid
          = some v
      ∧ (getStore (runM specs (validateStartM specs s0 f none) cmds) f).isInvalid
          = some (!v)
      ∧ ((getStore (runM specs (validateStartM specs s0 f none) cmds) f).messages.getD []
            = [] ↔ v = true) := by
  have hinv := runM_settles_invS specs cmds (validateStartM specs s0 f none) f
    s0.nextId ((getStore s0 f).serial + 1) hcmds
    (validateStartM_invS specs s0 f vs hrounds0 hpend0 hvs)
  obtain ⟨-, -, r', hrounds', -, -, -, -, -, -, hbr⟩ := hinv
  have hrr : r' = r := by
    rw [hrounds'] at hr
    exact (List.cons_eq_cons.mp hr).1
  subst hrr
  rcases hbr with ⟨hso, -⟩ | ⟨-, hvv, hii, hm, -⟩ | ⟨-, hvv, hii, ms, hm, hne⟩
  · rw [hsettled] at hso
    cases hso
  · exact ⟨true, hvv, hii, by simp [hm]⟩
  · exact ⟨false, hvv, hii, by simp [hm, hne]⟩

/-- Witness for `claim8_amended`: field `p` with one callable rule, one
`validate("p")` call, its single task settling invalid. -/
theorem claim8_amended_witness :
    ∃ v, (getStore (runM specsOneAsync
            (validateStartM specsOneAsync (initStateM specsOneAsync) "p" none)
            [.settle 0 false none]) "p").isValid = some v
      ∧ (getStore (runM specsOneAsync
            (validateStartM specsOneAsync (initStateM specsOneAsync) "p" none)
            [.settle 0 false none]) "p").isInvalid = some (!v)
      ∧ ((getStore (runM specsOneAsync
            (validateStartM specsOneAsync (initStateM specsOneAsync) "p" none)
            [.settle 0 false none]) "p").messages.getD [] = [] ↔ v = true) :=
  claim8_amended specsOneAsync (initStateM specsOneAsync) "p" [asyncRequired]
    [.settle 0 false none]
    { rid := 0, fieldName := "p", serial := 1, outstanding := 0,
      launching := false, settledOnce := true, parent := none }
    rfl rfl rfl (by simp [isSettleCmd]) rfl rfl

/-! ## Frame lemmas: operations on other fields leave a field's store alone -/

theorem roundsNe_bumpOutstanding (s : MState) (rid : Nat) (f : String)
    (h : ∀ r ∈ s.rounds, r.fieldName ≠ f) :
    ∀ q ∈ (bumpOutstanding s rid).rounds, q.fieldName ≠ f := by
  intro q hq
  simp only [bumpOutstanding, List.mem_map] at hq
  obtain ⟨r, hr, hq⟩ := hq
  subst hq
  split
  · simpa using h r hr
  · exact h r hr

theorem roundsNe_putRound (s : MState) (r' : Round) (f : String)
    (h : ∀ r ∈ s.rounds, r.fieldName ≠ f) (h' : r'.fieldName ≠ f) :
    ∀ q ∈ (putRound s r').rounds, q.fieldName ≠ f := by
  intro q hq
  simp only [putRound, List.mem_map] at hq
  obtain ⟨r, hr, hq⟩ := hq
  subst hq
  split
  · exact h'
  · exact h r hr

theorem finalizeRound_away (specs : List (String × MFieldSpec)) (s : MState)
    (rid : Nat) (valid : Bool) (f : String)
    (h : ∀ r ∈ s.rounds, r.fieldName ≠ f) :
    getStore (finalizeRound specs s rid valid) f = getStore s f
    ∧ ∀ q ∈ (finalizeRound specs s rid valid).rounds, q.fieldName ≠ f := by
  cases hfr : findRound s rid with
  | none =>
      simp only [finalizeRound, hfr]
      exact ⟨trivial, h⟩
  | some r =>
      have hrne : r.fieldName ≠ f := h r (List.mem_of_find?_eq_some hfr)
      have hput : ∀ q ∈ (putRound s { r with settledOnce := true }).rounds,
          q.fieldName ≠ f := roundsNe_putRound s _ f h hrne
      simp only [finalizeRound, hfr]
      refine ⟨?_, ?_⟩
      · repeat' split
        all_goals
          simp [getStore_putStore_ne _ _ _ _ hrne,
            getStore_setValidityM_ne _ _ _ _ _ hrne, getStore_joinComplete]
      · repeat' split
        all_goals
          intro q hq
          apply hput q
          simpa [rounds_setValidityM, rounds_joinComplete] using hq

theorem roundTaskComplete_away (specs : List (String × MFieldSpec)) (s : MState)
    (rid : Nat) (err : Bool) (f : String)
    (h : ∀ r ∈ s.rounds, r.fieldName ≠ f) :
    getStore (roundTaskComplete specs s rid err) f = getStore s f
    ∧ ∀ q ∈ (roundTaskComplete specs s rid err).rounds, q.fieldName ≠ f := by
  cases hfr : findRound s rid with
  | none =>
      simp only [roundTaskComplete, hfr]
      exact ⟨trivial, h⟩
  | some r =>
      have hrne : r.fieldName ≠ f := h r (List.mem_of_find?_eq_some hfr)
      have hput : ∀ q ∈ (putRound s { r with outstanding := r.outstanding - 1 }).rounds,
          q.fieldName ≠ f := roundsNe_putRound s _ f h hrne
      simp only [roundTaskComplete, hfr]
      split
      · exact ⟨by simp, hput⟩
      · split
        · obtain ⟨h1, h2⟩ := finalizeRound_away specs
            (putRound s { r with outstanding := r.outstanding - 1 }) rid false f hput
          exact ⟨h1.trans (by simp), h2⟩
        · split
          · obtain ⟨h1, h2⟩ := finalizeRound_away specs
              (putRound s { r with outstanding := r.outstanding - 1 }) rid true f hput
            exact ⟨h1.trans (by simp), h2⟩
          · exact ⟨by simp, hput⟩

theorem settleCore_away (specs : List (String × MFieldSpec)) (s : MState)
    (p : Pending) (valid : Bool) (marker : Option Val) (f : String)
    (hpf : p.fieldName ≠ f)
    (h : ∀ r ∈ s.rounds, r.fieldName ≠ f) :
    getStore (settleCore specs s p valid marker) f = getStore s f
    ∧ ∀ q ∈ (settleCore specs s p valid marker).rounds, q.fieldName ≠ f := by
  simp only [settleCore]
  repeat' split
  all_goals
    refine ⟨(roundTaskComplete_away specs _ p.rid _ f ?_).1.trans ?_,
      (roundTaskComplete_away specs _ p.rid _ f ?_).2⟩
  all_goals first
    | (intro q hq
       exact h q (by simpa [pushMessageM] using hq))
    | simp [pushMessageM, getStore_putStore_ne _ _ _ _ hpf]

theorem launchOne_away (specs : List (String × MFieldSpec)) (s : MState)
    (rid : Nat) (g : String) (sr : Nat) (value : Option Val) (vld : MValidation)
    (f : String) (hg : g ≠ f)
    (h : ∀ r ∈ s.rounds, r.fieldName ≠ f) :
    getStore (launchOne specs s rid g sr value vld) f = getStore s f
    ∧ ∀ q ∈ (launchOne specs s rid g sr value vld).rounds, q.fieldName ≠ f := by
  have hb := roundsNe_bumpOutstanding s rid f h
  cases hrule : vld.rule with
  | funcRule =>
      simp only [launchOne, hrule]
      exact ⟨by simp, fun q hq => hb q (by simpa using hq)⟩
  | regexRule test =>
      simp only [launchOne, hrule]
      obtain ⟨h1, h2⟩ := settleCore_away specs (bumpOutstanding s rid)
        { rid, fieldName := g, serial := sr, message := vld.message }
        (test value) none f hg hb
      exact ⟨h1.trans (by simp), h2⟩

theorem launchFold_away (specs : List (String × MFieldSpec)) (vs : List MValidation)
    (s : MState) (rid : Nat) (g : String) (sr : Nat) (value : Option Val)
    (f : String) (hg : g ≠ f)
    (h : ∀ r ∈ s.rounds, r.fieldName ≠ f) :
    getStore (vs.foldl (fun acc vld => launchOne specs acc rid g sr value vld) s) f
      = getStore s f
    ∧ ∀ q ∈ (vs.foldl (fun acc vld => launchOne specs acc rid g sr value vld) s).rounds,
        q.fieldName ≠ f := by
  induction vs generalizing s with
  | nil => exact ⟨rfl, h⟩
  | cons v vs ih =>
      obtain ⟨h1, h2⟩ := launchOne_away specs s rid g sr value v f hg h
      obtain ⟨h3, h4⟩ := ih (launchOne specs s rid g sr value v) h2
      exact ⟨h3.trans h1, h4⟩

theorem endLaunch_away (specs : List (String × MFieldSpec)) (s : MState)
    (rid : Nat) (f : String)
    (h : ∀ r ∈ s.rounds, r.fieldName ≠ f) :
    getStore (endLaunch specs s rid) f = getStore s f
    ∧ ∀ q ∈ (endLaunch specs s rid).rounds, q.fieldName ≠ f := by
  cases hfr : findRound s rid with
  | none =>
      simp only [endLaunch, hfr]
      exact ⟨trivial, h⟩
  | some r =>
      have hrne : r.fieldName ≠ f := h r (List.mem_of_find?_eq_some hfr)
      have hput : ∀ q ∈ (putRound s { r with launching := false }).rounds,
          q.fieldName ≠ f := roundsNe_putRound s _ f h hrne
      simp only [endLaunch, hfr]
      split
      · obtain ⟨h1, h2⟩ := finalizeRound_away specs
          (putRound s { r with launching := false }) rid true f hput
        exact ⟨h1.trans (by simp), h2⟩
      · exact ⟨by simp, hput⟩

theorem validateStartM_away (specs : List (String × MFieldSpec)) (s : MState)
    (g : String) (parent : Option Nat) (f : String) (hg : g ≠ f)
    (h : ∀ r ∈ s.rounds, r.fieldName ≠ f) :
    getStore (validateStartM specs s g parent) f = getStore s f
    ∧ ∀ q ∈ (validateStartM specs s g parent).rounds, q.fieldName ≠ f := by
  simp only [validateStartM]
  cases hm : (specFindM specs g).bind (fun sp => sp.validations) with
  | none =>
      simp only [hm]
      cases parent with
      | none =>
          refine ⟨by simp [getStore_stores, stores_putStore, lookupStr_storeUpd, hg], ?_⟩
          intro q hq
          exact h q (by simpa using hq)
      | some jid =>
          refine ⟨(getStore_joinComplete _ _ _ _).trans
            (by simp [getStore_stores, stores_putStore, lookupStr_storeUpd, hg]), ?_⟩
          intro q hq
          rw [rounds_joinComplete] at hq
          exact h q (by simpa using hq)
  | some vs =>
      simp only [hm]
      have h4 : ∀ q ∈ (MState.rounds
          { putStore (putStore (putStore s g (fun st => { st with messages := none }))
                g (fun st => { st with validating := some true }))
              g (fun st => { st with serial := st.serial + 1 }) with
            nextId := (putStore (putStore (putStore s g
                (fun st => { st with messages := none }))
                g (fun st => { st with validating := some true }))
              g (fun st => { st with serial := st.serial + 1 })).nextId + 1,
            rounds := (putStore (putStore (putStore s g
                (fun st => { st with messages := none }))
                g (fun st => { st with validating := some true }))
              g (fun st => { st with serial := st.serial + 1 })).rounds ++
              [{ rid := (putStore (putStore (putStore s g
                    (fun st => { st with messages := none }))
                    g (fun st => { st with validating := some true }))
                  g (fun st => { st with serial := st.serial + 1 })).nextId,
                 fieldName := g,
                 serial := (getStore (putStore (putStore (putStore s g
                      (fun st => { st with messages := none }))
                      g (fun st => { st with validating := some true }))
                    g (fun st => { st with serial := st.serial + 1 })) g).serial,
                 outstanding := 0, launching := true, settledOnce := false,
                 parent := parent }] }),
          q.fieldName ≠ f := by
        intro q hq
        simp only [rounds_putStore, List.mem_append, List.mem_singleton] at hq
        rcases hq with hq | hq
        · exact h q hq
        · subst hq
          exact hg
      obtain ⟨h1, h2⟩ := launchFold_away specs vs _ _ g _ _ f hg h4
      obtain ⟨h3, h5⟩ := endLaunch_away specs _ _ f h2
      refine ⟨h3.trans (h1.trans ?_), h5⟩
      simp [getStore_stores, stores_putStore, lookupStr_storeUpd, hg]

theorem rounds_bumpJoin (s : MState) (jid : Nat) :
    (bumpJoin s jid).rounds = s.rounds := rfl

theorem getStore_bumpJoin_eq (s : MState) (jid : Nat) (f : String) :
    getStore (bumpJoin s jid) f = getStore s f := rfl

theorem getStore_endJoinLaunch (s : MState) (jid : Nat) (f : String) :
    getStore (endJoinLaunch s jid) f = getStore s f := by
  simp only [endJoinLaunch]
  repeat' split
  all_goals rfl

theorem rounds_endJoinLaunch (s : MState) (jid : Nat) :
    (endJoinLaunch s jid).rounds = s.rounds := by
  simp only [endJoinLaunch]
  repeat' split
  all_goals rfl

/-- The launch loop of `validateAll` over targets that do not mention `f`
leaves `f`'s store alone. -/
theorem validateFold_away (specs : List (String × MFieldSpec))
    (targets : List (String × MFieldSpec)) (jid : Nat) (s : MState) (f : String)
    (htar : ∀ p ∈ targets, p.1 ≠ f)
    (h : ∀ r ∈ s.rounds, r.fieldName ≠ f) :
    getStore (targets.foldl (fun acc p =>
        validateStartM specs (bumpJoin acc jid) p.1 (some jid)) s) f = getStore s f
    ∧ ∀ q ∈ (targets.foldl (fun acc p =>
        validateStartM specs (bumpJoin acc jid) p.1 (some jid)) s).rounds,
        q.fieldName ≠ f := by
  induction targets generalizing s with
  | nil => exact ⟨rfl, h⟩
  | cons t ts ih =>
      have ht : t.1 ≠ f := htar t (List.mem_cons_self t ts)
      obtain ⟨h1, h2⟩ := validateStartM_away specs (bumpJoin s jid) t.1 (some jid) f ht
        (fun q hq => h q (by rw [rounds_bumpJoin] at hq; exact hq))
      obtain ⟨h3, h4⟩ := ih (validateStartM specs (bumpJoin s jid) t.1 (some jid))
        (fun p hp => htar p (List.mem_cons_of_mem _ hp)) h2
      exact ⟨h3.trans (h1.trans (getStore_bumpJoin_eq s jid f)), h4⟩

/-- `validateAll` on a validator whose spec entries for `f` declare no
validations (and with no round of `f` in flight) leaves `f`'s store — its
`isValid`, `isInvalid`, `messages`, everything — untouched. -/
theorem validateAllM_away (specs : List (String × MFieldSpec)) (s : MState)
    (f : String)
    (hnone : ∀ p ∈ specs, p.1 = f → p.2.validations = none)
    (h : ∀ r ∈ s.rounds, r.fieldName ≠ f) :
    getStore (validateAllM specs s) f = getStore s f := by
  simp only [validateAllM]
  have htar : ∀ p ∈ specs.filter (fun p => p.2.validations.isSome), p.1 ≠ f := by
    intro p hp hpf
    obtain ⟨hmem, hsome⟩ := List.mem_filter.mp hp
    rw [hnone p hmem hpf] at hsome
    simp at hsome
  obtain ⟨h1, h2⟩ := validateFold_away specs
    (specs.filter (fun p => p.2.validations.isSome)) s.nextId
    { s with
        nextId := s.nextId + 1,
        joins := s.joins ++ [{ jid := s.nextId, outstanding := 0,
                               launching := true, settledOnce := false }] }
    f htar (fun q hq => h q hq)
  exact (getStore_endJoinLaunch _ _ _).trans (h1.trans (by simp [getStore_stores]))

/-- C3 counterexample: field `p` of `specsPlain` declares no validations.
`setInvalid("p", "m")` gives it `messages = ["m"]`; a subsequent
`validate("p")` resolves `true` but deletes those messages (`_validate`
begins with `model.del(... + '.messages')` before checking for a
`validations` key), refuting "never mutates that field's messages". -/
theorem claim3_counterexample :
    (getStore (runM specsPlain (initStateM specsPlain)
        [.setInvalidCall "p" (some "m")]) "p").messages = some ["m"]
    ∧ (getStore (runM specsPlain (initStateM specsPlain)
        [.setInvalidCall "p" (some "m"), .validate "p"]) "p").messages = none
    ∧ (runM specsPlain (initStateM specsPlain)
        [.setInvalidCall "p" (some "m"), .validate "p"]).callLog = [(0, true)] :=
  ⟨rfl, rfl, rfl⟩

/-- C3 (amended): `validate(p)` on a field whose spec declares no
validations resolves `true` at once and leaves `isValid`/`isInvalid`
untouched, but it does mutate the field's messages: they are deleted
unconditionally.  `validateAll` excludes such fields from its aggregation
(its target filter keeps only specs with a `validations` entry), and a
`validateAll` call — with no round for the field in flight — leaves the
field's whole store untouched. -/
theorem claim3_amended :
    (∀ (specs : List (String × MFieldSpec)) (s : MState) (f : String),
        (specFindM specs f).bind (fun sp => sp.validations) = none →
        (stepM specs s (.validate f)).callLog = s.callLog ++ [(s.nextId, true)]
        ∧ (getStore (stepM specs s (.validate f)) f).messages = none
        ∧ (getStore (stepM specs s (.validate f)) f).isValid
            = (getStore s f).isValid
        ∧ (getStore (stepM specs s (.validate f)) f).isInvalid
            = (getStore s f).isInvalid)
    ∧ (∀ (specs : List (String × MFieldSpec)) (f : String),
        (∀ p ∈ specs, p.1 = f → p.2.validations = none) →
        ∀ p ∈ specs.filter (fun q => q.2.validations.isSome), p.1 ≠ f)
    ∧ (∀ (specs : List (String × MFieldSpec)) (s : MState) (f : String),
        (∀ p ∈ specs, p.1 = f → p.2.validations = none) →
        (∀ r ∈ s.rounds, r.fieldName ≠ f) →
        getStore (stepM specs s .validateAll) f = getStore s f) := by
  refine ⟨?_, ?_, ?_⟩
  · intro specs s f hd
    simp only [stepM, validateStartM, hd]
    refine ⟨by simp, ?_, ?_, ?_⟩
    all_goals simp [getStore_stores, stores_putStore, lookupStr_storeUpd]
  · intro specs f hnone p hp hpf
    obtain ⟨hmem, hsome⟩ := List.mem_filter.mp hp
    rw [hnone p hmem hpf] at hsome
    simp at hsome
  · intro specs s f hnone hr
    exact validateAllM_away specs s f hnone hr

/-- Witness for `claim3_amended`: the validation-free field `p` of
`specsPlain`, starting from the post-`_setup` state. -/
theorem claim3_amended_witness :
    ((stepM specsPlain (initStateM specsPlain) (.validate "p")).callLog
        = (initStateM specsPlain).callLog ++ [((initStateM specsPlain).nextId, true)]
      ∧ (getStore (stepM specsPlain (initStateM specsPlain) (.validate "p"))
          "p").messages = none
      ∧ (getStore (stepM specsPlain (initStateM specsPlain) (.validate "p"))
          "p").isValid = (getStore (initStateM specsPlain) "p").isValid
      ∧ (getStore (stepM specsPlain (initStateM specsPlain) (.validate "p"))
          "p").isInvalid = (getStore (initStateM specsPlain) "p").isInvalid)
    ∧ (∀ p ∈ specsPlain.filter (fun q => q.2.validations.isSome), p.1 ≠ "p")
    ∧ getStore (stepM specsPlain (initStateM specsPlain) .validateAll) "p"
        = getStore (initStateM specsPlain) "p" :=
  ⟨claim3_amended.1 specsPlain (initStateM specsPlain) "p" rfl,
   claim3_amended.2.1 specsPlain "p"
     (by
       intro p hp h1
       simp only [specsPlain, List.mem_cons, List.mem_singleton] at hp
       rcases hp with rfl | rfl | hp
       · rfl
       · exact absurd h1 (by decide)
       · simp at hp),
   claim3_amended.2.2 specsPlain (initStateM specsPlain) "p"
     (by
       intro p hp h1
       simp only [specsPlain, List.mem_cons, List.mem_singleton] at hp
       rcases hp with rfl | rfl | hp
       · rfl
       · exact absurd h1 (by decide)
       · simp at hp)
     (by intro r hr; simp [initStateM] at hr)⟩

end DerbyValidator
